import Mathlib

/-!
# Verification of the Penpot MCP server's Transit+JSON decoder

Shallow embedding of `src/penpot_mcp/services/transit.py` (the stateful
Transit+JSON decoder) and proofs about it.

Modelling conventions:

* A Python `str` is modelled as a `List Nat` of Unicode code points.  This is
  exact: Python strings are sequences of code points (including, in principle,
  lone surrogates, which a Lean `String` could not carry).  String literals of
  the source are written through the helper `pystr`.
* Machine integers do not occur; Python's arbitrary-precision `int` is `Int`.
* Python `float` values produced by `float(s)` are modelled exactly as the
  rational value of the accepted decimal literal, kept as an unreduced
  numerator/denominator pair (constructor `PyFloat.finite`), or as
  `inf`/`neginf`/`nan`.  Two literals with the same exact rational value round
  to the same IEEE-754 double, so any equality proved here transfers to Python
  equality.  (Distinct rationals may still round to the same double; no
  theorem below concludes a Python *in*equality from a rational inequality.)
* Fallible Python operations are embedded with `Option`; a result of `none`
  models an exception that the source does **not** catch and that would
  propagate out of `decode_transit` (for example the `OverflowError` raised by
  converting an out-of-range `int` to `float` inside the `~m` branch, which the
  surrounding `except (ValueError, OSError)` clause does not catch).
  Exceptions the source catches locally are resolved locally, as in the source.
* The recursive tree walk `_decode` is embedded with an explicit fuel
  parameter so that every definition is structurally recursive and
  kernel-reducible; the entry point supplies a fuel (`weight`) that dominates
  the depth of the walk.  Theorems about the walker quantify over the fuel or
  hold at the entry point's fuel.
-/

set_option linter.unusedVariables false

/-- Convert a Lean string literal to the code-point model of a Python `str`. -/
def pystr (s : String) : List Nat := s.toList.map Char.toNat

/-- ASCII decimal digit test (Python's `int`/`float` also accept non-ASCII
Unicode decimal digits; those exotic inputs are outside this model). -/
def isDigit (c : Nat) : Bool := 48 ≤ c && c ≤ 57

/-- Whitespace stripped by Python's `int()`/`float()` conversions (ASCII
whitespace; Python also strips other Unicode whitespace, outside this model). -/
def isPySpace (c : Nat) : Bool := c = 32 || c = 9 || c = 10 || c = 11 || c = 12 || c = 13

/-- Strip leading and trailing whitespace, as `int()`/`float()` do. -/
def stripPySpaces (s : List Nat) : List Nat :=
  ((s.dropWhile isPySpace).reverse.dropWhile isPySpace).reverse

/-- Scan a run of decimal digits in which single underscores may appear
between digits (Python numeric-literal syntax for `int()`/`float()`).
Returns the accumulated value, the number of digits consumed, and the
unconsumed remainder.  A trailing or doubled underscore is left in the
remainder, where the caller's exhaustiveness check rejects it, matching
Python's `ValueError`. -/
def goDigits : Nat → Nat → List Nat → Nat × Nat × List Nat
  | acc, cnt, [] => (acc, cnt, [])
  | acc, cnt, 95 :: d :: rest =>
    if isDigit d then goDigits (acc * 10 + (d - 48)) (cnt + 1) rest
    else (acc, cnt, 95 :: d :: rest)
  | acc, cnt, [95] => (acc, cnt, [95])
  | acc, cnt, d :: rest =>
    if isDigit d then goDigits (acc * 10 + (d - 48)) (cnt + 1) rest
    else (acc, cnt, d :: rest)

/-- Parse a digit group that must start with a digit: value, digit count,
remainder.  Rejects a leading underscore, as Python does. -/
def parseUDigits : List Nat → Option (Nat × Nat × List Nat)
  | d :: r => if isDigit d then some (goDigits (d - 48) 1 r) else none
  | [] => none

/-- Model of Python's `int(s)` (base 10).  `none` models `ValueError`.
Faithful for ASCII input, including the sign, surrounding whitespace,
underscore placement, and the default 4300-digit conversion limit of
CPython ≥ 3.11 (`sys.int_info.default_max_str_digits`). -/
def pyInt? (s : List Nat) : Option Int :=
  let t := stripPySpaces s
  let sgn : Option (Bool × List Nat) :=
    match t with
    | 43 :: r => some (false, r)
    | 45 :: r => some (true, r)
    | _ => some (false, t)
  match sgn with
  | some (neg, t2) =>
    match parseUDigits t2 with
    | some (v, cnt, rem) =>
      if rem = [] then
        if 4300 < cnt then none
        else some (if neg then -(v : Int) else (v : Int))
      else none
    | none => none
  | none => none

/-- Value of a Python `float`: the exact rational `num / den` of the accepted
literal (unreduced, `den` a power of ten and never zero), or an infinity, or
NaN. -/
inductive PyFloat where
  | finite (num : Int) (den : Nat)
  | inf
  | neginf
  | nan
  deriving DecidableEq

/-- The exact rational a finite `PyFloat` denotes. -/
def PyFloat.toRat? : PyFloat → Option ℚ
  | PyFloat.finite n d => some ((n : ℚ) / (d : ℚ))
  | _ => none

/-- Lower-case an ASCII letter (for `inf`/`nan` recognition). -/
def toLowerAscii (c : Nat) : Nat := if 65 ≤ c ∧ c ≤ 90 then c + 32 else c

/-- Model of Python's `float(s)`.  `none` models `ValueError`.  Faithful for
ASCII input: sign, whitespace, `inf`/`infinity`/`nan` (case-insensitive),
underscores between digits, optional integer or fractional part, exponent. -/
def pyFloat? (s : List Nat) : Option PyFloat :=
  let t := stripPySpaces s
  let (neg, t2) :=
    match t with
    | 43 :: r => (false, r)
    | 45 :: r => (true, r)
    | _ => (false, t)
  let lw := t2.map toLowerAscii
  if lw = pystr "inf" ∨ lw = pystr "infinity" then
    some (if neg then PyFloat.neginf else PyFloat.inf)
  else if lw = pystr "nan" then
    some PyFloat.nan
  else
    -- mantissa as exact numerator over 10^fc
    let mant : Option (Nat × Nat × List Nat) :=
      match t2 with
      | 46 :: r =>  -- ".digits"
        match parseUDigits r with
        | some (fv, fc, rem) => some (fv, fc, rem)
        | none => none
      | _ =>
        match parseUDigits t2 with
        | some (iv, _, rem) =>
          match rem with
          | 46 :: r2 =>  -- "digits." or "digits.digits"
            match r2 with
            | d :: _ =>
              if isDigit d then
                match parseUDigits r2 with
                | some (fv, fc, rem2) => some (iv * 10 ^ fc + fv, fc, rem2)
                | none => none
              else some (iv, 0, r2)
            | [] => some (iv, 0, [])
          | _ => some (iv, 0, rem)
        | none => none
    match mant with
    | none => none
    | some (m, fc, rem) =>
      let expo : Option ℤ :=
        match rem with
        | [] => some 0
        | e :: r3 =>
          if e = 101 ∨ e = 69 then
            let (eneg, r4) :=
              match r3 with
              | 43 :: r5 => (false, r5)
              | 45 :: r5 => (true, r5)
              | _ => (false, r3)
            match parseUDigits r4 with
            | some (ev, _, rem2) =>
              if rem2 = [] then some (if eneg then -(ev : ℤ) else (ev : ℤ)) else none
            | none => none
          else none
      match expo with
      | none => none
      | some e =>
        let num : Int := (if neg then -(m : Int) else (m : Int))
        if 0 ≤ e then some (PyFloat.finite (num * (10 : Int) ^ e.toNat) (10 ^ fc))
        else some (PyFloat.finite num (10 ^ fc * 10 ^ (-e).toNat))

/-- Decimal digits of a natural number as code points. -/
def natToDigits (n : Nat) : List Nat := (Nat.toDigits 10 n).map Char.toNat

/-- Zero-pad a natural number to a given width, as `%0Nd` does. -/
def padNat (w n : Nat) : List Nat :=
  List.replicate (w - (natToDigits n).length) 48 ++ natToDigits n

/-- Gregorian calendar date from a count of days since 1970-01-01
(the standard civil-from-days algorithm; used to model the date computation
inside `datetime.fromtimestamp(..., tz=timezone.utc)`). -/
def civilFromDays (z0 : Int) : Int × Int × Int :=
  let z := z0 + 719468
  let era := Int.ediv z 146097
  let doe := (Int.emod z 146097).toNat
  let yoe := (doe - doe / 1460 + doe / 36524 - doe / 146096) / 365
  let y : Int := (yoe : Int) + era * 400
  let doy := doe - (365 * yoe + yoe / 4 - yoe / 100)
  let mp := (5 * doy + 2) / 153
  let d := doy - (153 * mp + 2) / 5 + 1
  let m : Int := (mp : Int) + (if mp < 10 then 3 else -9)
  (y + (if m ≤ 2 then 1 else 0), m, (d : Int))

/-- The ISO-8601 UTC string
`datetime.fromtimestamp(n / 1000.0, tz=timezone.utc).isoformat()` for an
epoch-millisecond count `n` within the representable year range.  The
float division by 1000.0 is modelled as exact (its sub-microsecond rounding
error is not observable for the claims below). -/
def isoFromMs (n : Int) : List Nat :=
  let day : Int := Int.ediv n 86400000
  let msod : Nat := (Int.emod n 86400000).toNat
  let ymd := civilFromDays day
  let h := msod / 3600000
  let mi := msod % 3600000 / 60000
  let sec := msod % 60000 / 1000
  let us := msod % 1000 * 1000
  padNat 4 ymd.1.toNat ++ [45] ++ padNat 2 ymd.2.1.toNat ++ [45] ++ padNat 2 ymd.2.2.toNat
    ++ [84] ++ padNat 2 h ++ [58] ++ padNat 2 mi ++ [58] ++ padNat 2 sec
    ++ (if us = 0 then [] else [46] ++ padNat 6 us) ++ pystr "+00:00"

/-- Model of `datetime.fromtimestamp(n / 1000.0, tz=timezone.utc).isoformat()`
on the caught-error side: `none` models the `ValueError` raised when the year
falls outside 1..9999 (caught by the source and degraded to the literal). -/
def fromtimestampIso? (n : Int) : Option (List Nat) :=
  if n < -62135596800000 ∨ 253402300800000 ≤ n then none
  else some (isoFromMs n)

/-- Converting a Python `int` to `float` raises an uncaught `OverflowError`
when the correctly rounded value would be out of the IEEE-754 binary64 range,
that is when `|n| ≥ 2^1024 - 2^970`.  This happens in the `~m` branch at
`int(rest) / 1000.0` before `datetime.fromtimestamp` is reached. -/
def intToFloatOverflow (n : Int) : Bool :=
  2 ^ 1024 - 2 ^ 970 ≤ n.natAbs

/-- `datetime.fromtimestamp` first converts its float argument to a C
`time_t`/`timeval`; seconds with absolute value at least `2^63` raise an
uncaught `OverflowError`.  In epoch milliseconds that is `|n| ≥ 2^63 * 1000`
(float rounding at the exact boundary is idealised away). -/
def timevalOverflowMs (n : Int) : Bool :=
  9223372036854775808000 ≤ n.natAbs

/-- The decoded-value type produced by the decoder: the images of Python
`None`/`bool`/`int`/`float`/`str`/`list`/`dict` that `_decode` can return.
Dict entries are kept in insertion order, as CPython dicts do. -/
inductive PVal where
  | null
  | bool (b : Bool)
  | int (n : Int)
  | float (x : PyFloat)
  | str (s : List Nat)
  | list (elems : List PVal)
  | map (entries : List (PVal × PVal))

/-- Embedding of `_parse_tagged` from `transit.py`.  Total except for the
`~m` branch, where `none` models the uncaught `OverflowError` described at
`intToFloatOverflow` / `timevalOverflowMs`; every *caught* parse failure
returns the literal, as in the source. -/
def parseTagged (s : List Nat) : Option PVal :=
  match s with
  | 126 :: tag :: rest =>
    if tag = 58 then some (PVal.str rest)          -- ':' keyword
    else if tag = 117 then some (PVal.str rest)    -- 'u' UUID
    else if tag = 109 then                         -- 'm' instant (epoch ms)
      match pyInt? rest with
      | some n =>
        if intToFloatOverflow n then none
        else if timevalOverflowMs n then none
        else
          match fromtimestampIso? n with
          | some iso => some (PVal.str iso)
          | none => some (PVal.str s)              -- ValueError caught
      | none => some (PVal.str s)                  -- ValueError caught
    else if tag = 116 then some (PVal.str rest)    -- 't' date string
    else if tag = 63 then some (PVal.bool (rest = pystr "t"))  -- '?' boolean
    else if tag = 105 then                         -- 'i' integer
      match pyInt? rest with
      | some n => some (PVal.int n)
      | none => some (PVal.str s)
    else if tag = 100 then                         -- 'd' double
      match pyFloat? rest with
      | some x => some (PVal.float x)
      | none => some (PVal.str s)
    else if tag = 110 then                         -- 'n' bigint
      match pyInt? rest with
      | some n => some (PVal.int n)
      | none => some (PVal.str s)
    else if tag = 126 then some (PVal.str (126 :: rest))  -- '~' escaped tilde
    else if tag = 94 then some (PVal.str (94 :: rest))    -- '^' escaped caret
    else some (PVal.str s)                         -- unknown tag
  | _ => some (PVal.str s)                         -- len < 2 or s[0] != '~'

/-- Model of Python's `chr(n)`: the one-code-point string, failing
(`ValueError`) for `n ≥ 0x110000`. -/
def pyChr? (n : Nat) : Option Nat := if n < 1114112 then some n else none

/-- Embedding of `_Cache._ref_for`: `'^' + chr(48+idx)` below 44, otherwise
the two-character base-44 form.  `none` models the `ValueError` of `chr`
out of range (only reachable after about 49 million cache registrations). -/
def refFor (idx : Nat) : Option (List Nat) :=
  if idx < 44 then (pyChr? (48 + idx)).map fun c => [94, c]
  else
    match pyChr? (48 + idx / 44), pyChr? (48 + idx % 44) with
    | some hi, some lo => some [94, hi, lo]
    | _, _ => none

/-- Embedding of `_Cache`: the ref-to-literal mapping in insertion order plus
the next-index counter. -/
structure Cache where
  map : List (List Nat × List Nat)
  idx : Nat

/-- The fresh cache `_Cache()` created by each `decode_transit` call. -/
def Cache.empty : Cache := ⟨[], 0⟩

/-- CPython dict assignment `m[k] = v`: replace the value at an existing key
in place, else append.  (Structural key equality; the cache's keys are the
pairwise distinct strings produced by `refFor`.) -/
def dictInsertStr : List (List Nat × List Nat) → List Nat → List Nat →
    List (List Nat × List Nat)
  | [], k, v => [(k, v)]
  | (k', v') :: rest, k, v =>
    if k' = k then (k', v) :: rest else (k', v') :: dictInsertStr rest k v

/-- The tag-character part of the cacheability test:
`s[0] == '~' and len(s) >= 2 and s[1] in {':', '$', '#'}`. -/
def cacheEligTag : List Nat → Bool
  | 126 :: t :: _ => t = 58 || t = 36 || t = 35  -- ':', '$', '#'
  | _ => false

/-- Embedding of `_Cache.cache`: register `s` under the next free index iff
`len(s) >= 4 and (as_key or (s[0] == '~' and len(s) >= 2 and s[1] in
{':', '$', '#'}))`.  `none` models the uncaught `chr` failure of `refFor`. -/
def Cache.cache (c : Cache) (s : List Nat) (asKey : Bool) : Option Cache :=
  if s.length < 4 then some c
  else if asKey || cacheEligTag s then
    match refFor c.idx with
    | some ref => some ⟨dictInsertStr c.map ref s, c.idx + 1⟩
    | none => none
  else some c

/-- Embedding of `_Cache.resolve`: `dict.get`, i.e. first (unique) match. -/
def Cache.resolve (c : Cache) (s : List Nat) : Option (List Nat) :=
  (c.map.find? fun p => p.1 = s).map Prod.snd

/-- Embedding of `_Cache.is_cache_ref`: `len(s) >= 2 and s[0] == '^'`. -/
def isCacheRef : List Nat → Bool
  | 94 :: _ :: _ => true
  | _ => false

/-- The tagged-string shape test `len(s) >= 2 and s[0] == '~'`. -/
def isTaggedShape : List Nat → Bool
  | 126 :: _ :: _ => true
  | _ => false

/-- Embedding of `_decode_str`. -/
def decodeStr (s : List Nat) (cache : Cache) (asKey : Bool) :
    Option (PVal × Cache) :=
  if isCacheRef s then
    match cache.resolve s with
    | some resolved => (parseTagged resolved).map fun p => (p, cache)
    | none => some (PVal.str s, cache)
  else
    match cache.cache s asKey with
    | none => none
    | some c1 =>
      if isTaggedShape s then (parseTagged s).map fun p => (p, c1)
      else some (PVal.str s, c1)

/-- A parsed JSON tree, the input type of the structural decoder: exactly the
null/bool/number/string/array/object nodes a conformant JSON parser
(`json.loads`) produces.  Numbers keep Python's int/float distinction;
object fields keep insertion order and always have string keys. -/
inductive JVal where
  | null
  | bool (b : Bool)
  | int (n : Int)
  | float (x : PyFloat)
  | str (s : List Nat)
  | arr (elems : List JVal)
  | obj (fields : List (List Nat × JVal))

/-- `s.startswith("~#")` for a literal tag header. -/
def isTagLit : List Nat → Bool
  | 126 :: 35 :: _ => true
  | _ => false

mutual
/-- Structural equality on decoded values, used for CPython dict key lookup
in the maps the decoder builds.  (Python's `==` additionally unifies
`bool`/`int`/`float` numerically and treats NaN by identity; no claim below
exercises those corners, and the maps built by the decoder compare keys
exactly as written here.) -/
def pvalBeq : PVal → PVal → Bool
  | PVal.null, PVal.null => true
  | PVal.bool a, PVal.bool b => a = b
  | PVal.int a, PVal.int b => a = b
  | PVal.float a, PVal.float b => a = b
  | PVal.str a, PVal.str b => a = b
  | PVal.list a, PVal.list b => pvalBeqL a b
  | PVal.map a, PVal.map b => pvalBeqP a b
  | _, _ => false

/-- Elementwise `pvalBeq` on lists. -/
def pvalBeqL : List PVal → List PVal → Bool
  | [], [] => true
  | a :: as, b :: bs => pvalBeq a b && pvalBeqL as bs
  | _, _ => false

/-- Elementwise `pvalBeq` on key/value pair lists. -/
def pvalBeqP : List (PVal × PVal) → List (PVal × PVal) → Bool
  | [], [] => true
  | (k, v) :: as, (k', v') :: bs => pvalBeq k k' && pvalBeq v v' && pvalBeqP as bs
  | _, _ => false
end

/-- CPython dict assignment `out[k] = v` for the decoder's result maps:
replace the value at an existing key in place, else append. -/
def dictInsertP : List (PVal × PVal) → PVal → PVal → List (PVal × PVal)
  | [], k, v => [(k, v)]
  | (k', v') :: rest, k, v =>
    if pvalBeq k' k then (k', v) :: rest else (k', v') :: dictInsertP rest k v

/-- Decimal rendering of a Python `int` (for `str()` of a payload). -/
def intToDigits (n : Int) : List Nat :=
  (if n < 0 then [45] else []) ++ natToDigits n.natAbs

mutual
/-- Python `str(payload)` as used by the verbose `uri` branch on a non-string
payload.  The structure (brackets, commas, quotes, `None`/`True`/`False`)
follows CPython; the digit string printed for a `float` is approximated by
rendering the exact stored rational, where CPython prints the shortest
round-tripping decimal (no claim inspects this branch's output). -/
def pyStrOfJVal : JVal → List Nat
  | JVal.str s => s
  | v => pyReprOfJVal v

/-- Python `repr(payload)`, used by `str()` inside containers. -/
def pyReprOfJVal : JVal → List Nat
  | JVal.null => pystr "None"
  | JVal.bool b => if b then pystr "True" else pystr "False"
  | JVal.int n => intToDigits n
  | JVal.float x =>
    match x with
    | PyFloat.finite n d => intToDigits n ++ [47] ++ natToDigits d
    | PyFloat.inf => pystr "inf"
    | PyFloat.neginf => pystr "-inf"
    | PyFloat.nan => pystr "nan"
  | JVal.str s => [39] ++ s ++ [39]
  | JVal.arr l => [91] ++ pyReprJoin l ++ [93]
  | JVal.obj fs => [123] ++ pyReprJoinF fs ++ [125]

/-- Comma-joined element reprs of a list. -/
def pyReprJoin : List JVal → List Nat
  | [] => []
  | [e] => pyReprOfJVal e
  | e :: rest => pyReprOfJVal e ++ [44, 32] ++ pyReprJoin rest

/-- Comma-joined `key: value` reprs of a dict. -/
def pyReprJoinF : List (List Nat × JVal) → List Nat
  | [] => []
  | [(k, v)] => [39] ++ k ++ [39, 58, 32] ++ pyReprOfJVal v
  | (k, v) :: rest =>
    [39] ++ k ++ [39, 58, 32] ++ pyReprOfJVal v ++ [44, 32] ++ pyReprJoinF rest
end

mutual
/-- Fuel that dominates the depth of the decoder's call tree on `v` (each
recursive call consumes one unit; string contents cost nothing). -/
def weight : JVal → Nat
  | JVal.arr l => 4 + weightList l
  | JVal.obj fs => 6 + weightFields fs
  | _ => 1

/-- `weight` summed over array elements. -/
def weightList : List JVal → Nat
  | [] => 1
  | e :: r => weight e + 4 + weightList r

/-- `weight` summed over object fields. -/
def weightFields : List (List Nat × JVal) → Nat
  | [] => 1
  | (_, v) :: r => weight v + 6 + weightFields r
end

mutual
/-- Embedding of `_decode`: dispatch on the JSON node kind.  The first
argument is fuel (see the module comment); every recursive call consumes one
unit, and `decodeTransitVal` supplies enough for the whole walk. -/
def decodeV : Nat → JVal → Cache → Bool → Option (PVal × Cache)
  | 0, _, _, _ => none
  | f + 1, v, cache, asKey =>
    match v with
    | JVal.str s => decodeStr s cache asKey
    | JVal.arr l => decodeArr f l cache
    | JVal.obj fields => decodeObj f fields cache
    | JVal.null => some (PVal.null, cache)
    | JVal.bool b => some (PVal.bool b, cache)
    | JVal.int n => some (PVal.int n, cache)
    | JVal.float x => some (PVal.float x, cache)

/-- Embedding of `_decode_list`: the `"^ "` sentinel map, tag-header
resolution (literal or cache reference) with its registration side effect,
and the plain-array fallback. -/
def decodeArr : Nat → List JVal → Cache → Option (PVal × Cache)
  | 0, _, _ => none
  | _ + 1, [], cache => some (PVal.list [], cache)
  | f + 1, first :: rest, cache =>
    match first with
    | JVal.str s =>
      if s = pystr "^ " then
        (decodePairs f rest cache []).map fun rc => (PVal.map rc.1, rc.2)
      else if isTagLit s then
        match cache.cache s false with
        | none => none
        | some c1 => decodeTagged f s (first :: rest) rest c1
      else if isCacheRef s then
        match cache.resolve s with
        | some r =>
          if isTagLit r then decodeTagged f r (first :: rest) rest cache
          else (decodeElems f (first :: rest) cache).map fun (rc : List PVal × Cache) => (PVal.list rc.1, rc.2)
        | none => (decodeElems f (first :: rest) cache).map fun (rc : List PVal × Cache) => (PVal.list rc.1, rc.2)
      else (decodeElems f (first :: rest) cache).map fun (rc : List PVal × Cache) => (PVal.list rc.1, rc.2)
    | _ => (decodeElems f (first :: rest) cache).map fun (rc : List PVal × Cache) => (PVal.list rc.1, rc.2)

/-- The tagged-container part of `_decode_list` once a tag header `tagStr`
has been resolved: taken only when the array has a second element (the
payload); with a single element the whole array falls back to the
plain-array case (`l` is the full array for that fallback).  Elements after
the payload are dropped, as in the source. -/
def decodeTagged :
    Nat → List Nat → List JVal → List JVal → Cache → Option (PVal × Cache)
  | 0, _, _, _, _ => none
  | f + 1, tagStr, l, rest, cache =>
    match rest with
    | payload :: _ =>
      let tag := tagStr.drop 2
      if tag = pystr "set" then
        (match payload with
         | JVal.arr p => decodeElems f p cache
         | _ => decodeElems f [payload] cache).map fun (rc : List PVal × Cache) => (PVal.list rc.1, rc.2)
      else if tag = pystr "list" then
        (match payload with
         | JVal.arr p => decodeElems f p cache
         | _ => decodeElems f [payload] cache).map fun (rc : List PVal × Cache) => (PVal.list rc.1, rc.2)
      else if tag = pystr "cmap" then
        match payload with
        | JVal.arr p => (decodePairs f p cache []).map fun rc => (PVal.map rc.1, rc.2)
        | _ => decodeV f payload cache false
          -- cmap with a non-list payload falls through the (false)
          -- ordered-set test to the generic branch, as in the source
      else if tag = pystr "ordered-set" then
        (match payload with
         | JVal.arr p => decodeElems f p cache
         | _ => decodeElems f [payload] cache).map fun (rc : List PVal × Cache) => (PVal.list rc.1, rc.2)
      else decodeV f payload cache false  -- generic tagged value
    | [] => (decodeElems f l cache).map fun (rc : List PVal × Cache) => (PVal.list rc.1, rc.2)

/-- The list comprehension `[_decode(e, cache) for e in elems]`. -/
def decodeElems : Nat → List JVal → Cache → Option (List PVal × Cache)
  | 0, _, _ => none
  | _ + 1, [], cache => some ([], cache)
  | f + 1, e :: es, cache => do
    let rc ← decodeV f e cache false
    let rcs ← decodeElems f es rc.2
    pure (rc.1 :: rcs.1, rcs.2)

/-- The pairwise `while i < len(items) - 1` loop shared by the sentinel map,
compact `cmap`, and verbose `cmap` branches: keys decoded with `as_key=True`,
values with `as_key=False`, an unpaired trailing element never touched. -/
def decodePairs :
    Nat → List JVal → Cache → List (PVal × PVal) →
    Option (List (PVal × PVal) × Cache)
  | 0, _, _, _ => none
  | f + 1, k :: v :: rest, cache, acc => do
    let krc ← decodeV f k cache true
    let vrc ← decodeV f v krc.2 false
    decodePairs f rest vrc.2 (dictInsertP acc krc.1 vrc.1)
  | _ + 1, _, cache, acc => some (acc, cache)

/-- The dict part of `_decode`: a single `"~#tag"` key selects the verbose
tagged-value branch (registering the key literal), any other dict decodes
fieldwise. -/
def decodeObj :
    Nat → List (List Nat × JVal) → Cache → Option (PVal × Cache)
  | 0, _, _ => none
  | f + 1, fields, cache =>
    match fields with
    | [(k, payload)] =>
      if isTagLit k then
        match cache.cache k false with
        | none => none
        | some c1 => decodeTV f (k.drop 2) payload c1
      else (decodeFields f fields cache []).map fun rc => (PVal.map rc.1, rc.2)
    | _ => (decodeFields f fields cache []).map fun rc => (PVal.map rc.1, rc.2)

/-- The general-object loop of `_decode`: keys through `_decode_str` with
`as_key=True`, values recursively, insertion order preserved. -/
def decodeFields :
    Nat → List (List Nat × JVal) → Cache → List (PVal × PVal) →
    Option (List (PVal × PVal) × Cache)
  | 0, _, _, _ => none
  | _ + 1, [], cache, acc => some (acc, cache)
  | f + 1, (k, v) :: rest, cache, acc => do
    let krc ← decodeStr k cache true
    let vrc ← decodeV f v krc.2 false
    decodeFields f rest vrc.2 (dictInsertP acc krc.1 vrc.1)

/-- Embedding of `_decode_tagged_verbose`. -/
def decodeTV : Nat → List Nat → JVal → Cache → Option (PVal × Cache)
  | 0, _, _, _ => none
  | f + 1, tag, payload, cache =>
    if tag = pystr "uri" then
      match payload with
      | JVal.str s => some (PVal.str s, cache)
      | _ => some (PVal.str (pyStrOfJVal payload), cache)
    else if tag = pystr "set" then
      (match payload with
       | JVal.arr p => decodeElems f p cache
       | _ => decodeElems f [payload] cache).map fun (rc : List PVal × Cache) => (PVal.list rc.1, rc.2)
    else if tag = pystr "list" then
      (match payload with
       | JVal.arr p => decodeElems f p cache
       | _ => decodeElems f [payload] cache).map fun (rc : List PVal × Cache) => (PVal.list rc.1, rc.2)
    else if tag = pystr "cmap" then
      match payload with
      | JVal.arr p => (decodePairs f p cache []).map fun rc => (PVal.map rc.1, rc.2)
      | _ => decodeV f payload cache false
    else if tag = pystr "ordered-set" then
      (match payload with
       | JVal.arr p => decodeElems f p cache
       | _ => decodeElems f [payload] cache).map fun (rc : List PVal × Cache) => (PVal.list rc.1, rc.2)
    else decodeV f payload cache false
end

/-- Embedding of `decode_transit` applied to an already-parsed JSON tree
that is not a Python `str` (a `str` argument first goes through `json.loads`;
see `decodeTransitText`): fresh cache, one structural walk, result value.
The supplied fuel `weight v` dominates the depth of the walk. -/
def decodeTransitVal (v : JVal) : Option PVal :=
  (decodeV (weight v) v Cache.empty false).map Prod.fst

/-- Embedding of `decode_transit` applied to raw text.  The external JSON
parser (`json.loads`, an external collaborator per the specification) is
represented by its outcome: `none` when it raises `JSONDecodeError`, in which
case the source returns the text unchanged; otherwise the parsed tree is
decoded. -/
def decodeTransitText (parsed : Option JVal) (raw : List Nat) : Option PVal :=
  match parsed with
  | none => some (PVal.str raw)
  | some v => decodeTransitVal v

/-- The reference codes of cache slots `0, 1, …, n-1`, in order. -/
def cacheRefs : Nat → Option (List (List Nat))
  | 0 => some []
  | n + 1 => (cacheRefs n).bind fun refs => (refFor n).map fun r => refs ++ [r]

/-- `CacheRep c ss` says the cache `c` is exactly the table whose slots are the
strings `ss`, in registration order: slot `i` holds `ss[i]` under the
reference code `refFor i`, and the next-index counter is `ss.length`.  This
is the §3 invariant: indices are exactly `0, 1, 2, …` in the order the
strings were registered. -/
def CacheRep (c : Cache) (ss : List (List Nat)) : Prop :=
  c.idx = ss.length ∧ (cacheRefs ss.length).map (fun refs => refs.zip ss) = some c.map

mutual
/-- No string anywhere in the tree has the cache-reference shape
(`'^'` + at least one more code point).  On such trees decoding never
consults the cache table, so the decoded value cannot depend on the cache
contents. -/
def refFree : JVal → Bool
  | JVal.null => true
  | JVal.bool _ => true
  | JVal.int _ => true
  | JVal.float _ => true
  | JVal.str s => !isCacheRef s
  | JVal.arr l => refFreeL l
  | JVal.obj fs => refFreeF fs

/-- `refFree` on every element. -/
def refFreeL : List JVal → Bool
  | [] => true
  | e :: r => refFree e && refFreeL r

/-- `refFree` on every field key and value. -/
def refFreeF : List (List Nat × JVal) → Bool
  | [] => true
  | (k, v) :: r => !isCacheRef k && refFree v && refFreeF r
end

/-- The specification's `referenceCodeFor(index)` formula, written to the
words of §4.1 for the refinement comparison of claim C6:
`'^' + chr(48+index)` when `index < 44`, otherwise
`'^' + chr(48 + index/44) + chr(48 + index%44)` (integer division). -/
def specReferenceCodeFor (index : Nat) : Option (List Nat) :=
  if index < 44 then (pyChr? (48 + index)).map fun c => [94, c]
  else
    match pyChr? (48 + index / 44), pyChr? (48 + index % 44) with
    | some hi, some lo => some [94, hi, lo]
    | _, _ => none

/-- The string `"~m" + "9" * 400`: a tagged instant whose 400-digit payload
parses as an `int` but overflows the conversion to `float`. -/
def mNines : List Nat := 126 :: 109 :: List.replicate 400 57

/-! ## Cache-table lemmas -/

theorem pyChr_eq {n m : Nat} (h : pyChr? n = some m) : m = n := by
  unfold pyChr? at h
  split at h <;> simp_all

theorem refFor_shape {i : Nat} {r : List Nat} (h : refFor i = some r) :
    (i < 44 ∧ r = [94, 48 + i]) ∨ (44 ≤ i ∧ r = [94, 48 + i / 44, 48 + i % 44]) := by
  unfold refFor at h
  split at h
  · left
    refine ⟨by assumption, ?_⟩
    cases hc : pyChr? (48 + i) with
    | none => rw [hc] at h; simp at h
    | some c => rw [hc] at h; simp at h; rw [← h, pyChr_eq hc]
  · right
    refine ⟨by omega, ?_⟩
    split at h
    · next hi lo hhi hlo =>
      simp at h
      rw [← h, pyChr_eq hhi, pyChr_eq hlo]
    · simp at h

theorem refFor_inj {i j : Nat} {r : List Nat}
    (h₁ : refFor i = some r) (h₂ : refFor j = some r) : i = j := by
  rcases refFor_shape h₁ with ⟨hi, rfl⟩ | ⟨hi, rfl⟩ <;>
    rcases refFor_shape h₂ with ⟨hj, e⟩ | ⟨hj, e⟩ <;> simp at e
  · omega
  · have di : i = 44 * (i / 44) + i % 44 := (Nat.div_add_mod i 44).symm
    have dj : j = 44 * (j / 44) + j % 44 := (Nat.div_add_mod j 44).symm
    omega

theorem cacheRefs_length :
    ∀ {n : Nat} {refs : List (List Nat)}, cacheRefs n = some refs → refs.length = n := by
  intro n
  induction n with
  | zero => intro refs h; simp [cacheRefs] at h; simp [← h]
  | succ n ih =>
    intro refs h
    rw [cacheRefs] at h
    cases hc : cacheRefs n with
    | none => rw [hc] at h; simp at h
    | some rs =>
      rw [hc] at h
      cases hf : refFor n with
      | none => rw [hf] at h; simp at h
      | some r =>
        rw [hf] at h
        simp at h
        simp [← h, ih hc]

theorem cacheRefs_mem :
    ∀ {n : Nat} {refs : List (List Nat)} {r : List Nat},
      cacheRefs n = some refs → r ∈ refs → ∃ i, i < n ∧ refFor i = some r := by
  intro n
  induction n with
  | zero => intro refs r h hm; simp [cacheRefs] at h; rw [h] at hm; simp at hm
  | succ n ih =>
    intro refs r h hm
    rw [cacheRefs] at h
    cases hc : cacheRefs n with
    | none => rw [hc] at h; simp at h
    | some rs =>
      rw [hc] at h
      cases hf : refFor n with
      | none => rw [hf] at h; simp at h
      | some r' =>
        rw [hf] at h
        simp at h
        rw [← h] at hm
        rcases List.mem_append.mp hm with hmem | hmem
        · rcases ih hc hmem with ⟨i, hi, hfi⟩
          exact ⟨i, by omega, hfi⟩
        · simp at hmem
          exact ⟨n, by omega, by rw [hf, hmem]⟩

theorem dictInsertStr_fresh :
    ∀ {m : List (List Nat × List Nat)} {k v : List Nat},
      (∀ p ∈ m, p.1 ≠ k) → dictInsertStr m k v = m ++ [(k, v)] := by
  intro m
  induction m with
  | nil => intro k v h; rfl
  | cons p rest ih =>
    intro k v h
    obtain ⟨k', v'⟩ := p
    rw [dictInsertStr]
    have hk : k' ≠ k := h (k', v') (List.mem_cons_self _ _)
    rw [if_neg hk]
    rw [ih fun q hq => h q (List.mem_cons_of_mem _ hq)]
    simp

/-- Registration preserves the slot-table representation: the table either
stays unchanged or gains exactly the slot `(refFor idx, s)` at the end, with
the counter advancing in step.  Existing slots are never touched. -/
theorem cache_rep {c : Cache} {ss : List (List Nat)} {s : List Nat} {ak : Bool}
    {c' : Cache} (hr : CacheRep c ss) (h : Cache.cache c s ak = some c') :
    CacheRep c' ss ∨ CacheRep c' (ss ++ [s]) := by
  obtain ⟨hidx, hmap⟩ := hr
  unfold Cache.cache at h
  split at h
  · injection h with h'
    subst h'
    left; exact ⟨hidx, hmap⟩
  · split at h
    · cases hf : refFor c.idx with
      | none => rw [hf] at h; exact Option.noConfusion h
      | some ref =>
        rw [hf] at h
        injection h with h'
        subst h'
        right
        cases hcr : cacheRefs ss.length with
        | none => rw [hcr] at hmap; simp at hmap
        | some refs =>
          rw [hcr] at hmap
          simp at hmap
          have hlen2 : refs.length = ss.length := cacheRefs_length hcr
          have hfresh : ∀ p ∈ c.map, p.1 ≠ ref := by
            intro p hp hpe
            rw [← hmap] at hp
            have h1 : p.1 ∈ refs := (List.of_mem_zip hp).1
            rcases cacheRefs_mem hcr h1 with ⟨i, hilt, hfi⟩
            rw [hpe] at hfi
            rw [hidx] at hf
            have := refFor_inj hfi hf
            omega
          refine ⟨by simp [hidx], ?_⟩
          rw [List.length_append, List.length_singleton, cacheRefs, hcr, ← hidx, hf]
          rw [dictInsertStr_fresh hfresh, ← hmap]
          simp [List.zip_append hlen2]
    · injection h with h'
      subst h'
      left; exact ⟨hidx, hmap⟩

/-- `_decode_str` preserves the slot-table representation. -/
theorem decodeStr_rep {s : List Nat} {cache : Cache} {ak : Bool} {r : PVal}
    {c' : Cache} {ss : List (List Nat)} (hr : CacheRep cache ss)
    (h : decodeStr s cache ak = some (r, c')) :
    CacheRep c' ss ∨ CacheRep c' (ss ++ [s]) := by
  unfold decodeStr at h
  split at h
  · cases hres : cache.resolve s with
    | some resolved =>
      simp only [hres] at h
      cases hp : parseTagged resolved with
      | none => rw [hp] at h; exact Option.noConfusion h
      | some p =>
        rw [hp] at h
        simp at h
        left; rw [← h.2]; exact hr
    | none =>
      rw [hres] at h
      have h2 : some ((PVal.str s : PVal), cache) = some (r, c') := h
      injection h2 with h3
      injection h3 with ha hb
      subst hb
      left; exact hr
  · cases hc : cache.cache s ak with
    | none => simp only [hc] at h; exact Option.noConfusion h
    | some c1 =>
      simp only [hc] at h
      have step := cache_rep hr hc
      split at h
      · cases hp : parseTagged s with
        | none => rw [hp] at h; exact Option.noConfusion h
        | some p =>
          rw [hp] at h
          simp at h
          rw [← h.2]; exact step
      · have h2 : some ((PVal.str s : PVal), c1) = some (r, c') := h
        injection h2 with h3
        injection h3 with ha hb
        subst hb
        exact step

theorem cache_repE {c : Cache} {ss : List (List Nat)} {s : List Nat} {ak : Bool}
    {c' : Cache} (hr : CacheRep c ss) (h : Cache.cache c s ak = some c') :
    ∃ ts, CacheRep c' (ss ++ ts) := by
  rcases cache_rep hr h with h2 | h2
  · exact ⟨[], by simpa using h2⟩
  · exact ⟨[s], h2⟩

theorem decodeStr_repE {s : List Nat} {cache : Cache} {ak : Bool} {r : PVal}
    {c' : Cache} {ss : List (List Nat)} (hr : CacheRep cache ss)
    (h : decodeStr s cache ak = some (r, c')) :
    ∃ ts, CacheRep c' (ss ++ ts) := by
  rcases decodeStr_rep hr h with h2 | h2
  · exact ⟨[], by simpa using h2⟩
  · exact ⟨[s], h2⟩

/-- Compose two table-extension steps. -/
theorem repE_step {c₁ c₂ : Cache} {ss : List (List Nat)}
    (h₁ : ∃ t, CacheRep c₁ (ss ++ t))
    (next : ∀ base, CacheRep c₁ base → ∃ t, CacheRep c₂ (base ++ t)) :
    ∃ t, CacheRep c₂ (ss ++ t) := by
  rcases h₁ with ⟨t₁, h₁⟩
  rcases next _ h₁ with ⟨t₂, h₂⟩
  exact ⟨t₁ ++ t₂, by rwa [← List.append_assoc]⟩

theorem elemsMap_rep {f : Nat}
    (ihE : ∀ es cache rs c' ss, CacheRep cache ss → decodeElems f es cache = some (rs, c') →
      ∃ ts, CacheRep c' (ss ++ ts))
    {es : List JVal} {cache : Cache} {r : PVal} {c' : Cache} {ss : List (List Nat)}
    (hr : CacheRep cache ss)
    (h : (decodeElems f es cache).map
      (fun (rc : List PVal × Cache) => (PVal.list rc.1, rc.2)) = some (r, c')) :
    ∃ ts, CacheRep c' (ss ++ ts) := by
  cases he : decodeElems f es cache with
  | none => rw [he] at h; exact Option.noConfusion h
  | some ec =>
    rw [he] at h; simp at h; rw [← h.2]
    exact ihE es cache ec.1 ec.2 ss hr he

theorem pairsMap_rep {f : Nat}
    (ihP : ∀ items cache acc m c' ss, CacheRep cache ss →
      decodePairs f items cache acc = some (m, c') → ∃ ts, CacheRep c' (ss ++ ts))
    {items : List JVal} {cache : Cache} {acc : List (PVal × PVal)} {r : PVal}
    {c' : Cache} {ss : List (List Nat)} (hr : CacheRep cache ss)
    (h : (decodePairs f items cache acc).map
      (fun (rc : List (PVal × PVal) × Cache) => (PVal.map rc.1, rc.2)) = some (r, c')) :
    ∃ ts, CacheRep c' (ss ++ ts) := by
  cases he : decodePairs f items cache acc with
  | none => rw [he] at h; exact Option.noConfusion h
  | some mc =>
    rw [he] at h; simp at h; rw [← h.2]
    exact ihP items cache acc mc.1 mc.2 ss hr he

theorem fieldsMap_rep {f : Nat}
    (ihF : ∀ fields cache acc m c' ss, CacheRep cache ss →
      decodeFields f fields cache acc = some (m, c') → ∃ ts, CacheRep c' (ss ++ ts))
    {fields : List (List Nat × JVal)} {cache : Cache} {acc : List (PVal × PVal)}
    {r : PVal} {c' : Cache} {ss : List (List Nat)} (hr : CacheRep cache ss)
    (h : (decodeFields f fields cache acc).map
      (fun (rc : List (PVal × PVal) × Cache) => (PVal.map rc.1, rc.2)) = some (r, c')) :
    ∃ ts, CacheRep c' (ss ++ ts) := by
  cases he : decodeFields f fields cache acc with
  | none => rw [he] at h; exact Option.noConfusion h
  | some mc =>
    rw [he] at h; simp at h; rw [← h.2]
    exact ihF fields cache acc mc.1 mc.2 ss hr he

/-- The walk only ever extends the cache table: from any faithfully
represented table, every decoder component returns a table representing
`ss ++ ts` for some list `ts` of newly registered strings — consecutive
indices, appended in registration order, existing slots untouched. -/
theorem decode_rep (f : Nat) :
    (∀ v cache ak r c' ss, CacheRep cache ss → decodeV f v cache ak = some (r, c') →
      ∃ ts, CacheRep c' (ss ++ ts)) ∧
    (∀ l cache r c' ss, CacheRep cache ss → decodeArr f l cache = some (r, c') →
      ∃ ts, CacheRep c' (ss ++ ts)) ∧
    (∀ tagStr l rest cache r c' ss, CacheRep cache ss →
      decodeTagged f tagStr l rest cache = some (r, c') → ∃ ts, CacheRep c' (ss ++ ts)) ∧
    (∀ es cache rs c' ss, CacheRep cache ss → decodeElems f es cache = some (rs, c') →
      ∃ ts, CacheRep c' (ss ++ ts)) ∧
    (∀ items cache acc m c' ss, CacheRep cache ss →
      decodePairs f items cache acc = some (m, c') → ∃ ts, CacheRep c' (ss ++ ts)) ∧
    (∀ fields cache r c' ss, CacheRep cache ss → decodeObj f fields cache = some (r, c') →
      ∃ ts, CacheRep c' (ss ++ ts)) ∧
    (∀ fields cache acc m c' ss, CacheRep cache ss →
      decodeFields f fields cache acc = some (m, c') → ∃ ts, CacheRep c' (ss ++ ts)) ∧
    (∀ tag payload cache r c' ss, CacheRep cache ss →
      decodeTV f tag payload cache = some (r, c') → ∃ ts, CacheRep c' (ss ++ ts)) := by
  induction f with
  | zero =>
    refine ⟨?_, ?_, ?_, ?_, ?_, ?_, ?_, ?_⟩ <;> intros <;>
      exact Option.noConfusion (by assumption : none = some _)
  | succ f ih =>
    obtain ⟨ihV, ihA, ihT, ihE, ihP, ihO, ihF, ihTV⟩ := ih
    refine ⟨?_, ?_, ?_, ?_, ?_, ?_, ?_, ?_⟩
    -- decodeV
    · intro v cache ak r c' ss hr h
      cases v with
      | str s => exact decodeStr_repE hr h
      | arr l =>
        simp only [decodeV] at h
        exact ihA l cache r c' ss hr h
      | obj fields =>
        simp only [decodeV] at h
        exact ihO fields cache r c' ss hr h
      | null =>
        have h2 : some ((PVal.null : PVal), cache) = some (r, c') := h
        injection h2 with h3; injection h3 with ha hb; subst hb
        exact ⟨[], by simpa using hr⟩
      | bool b =>
        have h2 : some ((PVal.bool b : PVal), cache) = some (r, c') := h
        injection h2 with h3; injection h3 with ha hb; subst hb
        exact ⟨[], by simpa using hr⟩
      | int n =>
        have h2 : some ((PVal.int n : PVal), cache) = some (r, c') := h
        injection h2 with h3; injection h3 with ha hb; subst hb
        exact ⟨[], by simpa using hr⟩
      | float x =>
        have h2 : some ((PVal.float x : PVal), cache) = some (r, c') := h
        injection h2 with h3; injection h3 with ha hb; subst hb
        exact ⟨[], by simpa using hr⟩
    -- decodeArr
    · intro l cache r c' ss hr h
      cases l with
      | nil =>
        have h2 : some ((PVal.list [] : PVal), cache) = some (r, c') := h
        injection h2 with h3; injection h3 with ha hb; subst hb
        exact ⟨[], by simpa using hr⟩
      | cons first rest =>
        cases first with
        | str s =>
          simp only [decodeArr] at h
          split at h
          · exact pairsMap_rep ihP hr h
          · split at h
            · cases hc : cache.cache s false with
              | none => rw [hc] at h; exact Option.noConfusion h
              | some c1 =>
                simp only [hc] at h
                exact repE_step (cache_repE hr hc) fun base hb =>
                  ihT s (JVal.str s :: rest) rest c1 r c' base hb h
            · split at h
              · cases hres : cache.resolve s with
                | some rr =>
                  simp only [hres] at h
                  split at h
                  · exact ihT rr (JVal.str s :: rest) rest cache r c' ss hr h
                  · exact elemsMap_rep ihE hr h
                | none =>
                  simp only [hres] at h
                  exact elemsMap_rep ihE hr h
              · exact elemsMap_rep ihE hr h
        | null => simp only [decodeArr] at h; exact elemsMap_rep ihE hr h
        | bool b => simp only [decodeArr] at h; exact elemsMap_rep ihE hr h
        | int n => simp only [decodeArr] at h; exact elemsMap_rep ihE hr h
        | float x => simp only [decodeArr] at h; exact elemsMap_rep ihE hr h
        | arr l2 => simp only [decodeArr] at h; exact elemsMap_rep ihE hr h
        | obj fs => simp only [decodeArr] at h; exact elemsMap_rep ihE hr h
    -- decodeTagged
    · intro tagStr l rest cache r c' ss hr h
      cases rest with
      | nil =>
        simp only [decodeTagged] at h
        exact elemsMap_rep ihE hr h
      | cons payload rest2 =>
        simp only [decodeTagged] at h
        split at h
        · split at h <;> exact elemsMap_rep ihE hr h
        · split at h
          · split at h <;> exact elemsMap_rep ihE hr h
          · split at h
            · split at h <;>
                first
                | exact pairsMap_rep ihP hr h
                | exact ihV _ cache false r c' ss hr h
            · split at h
              · split at h <;> exact elemsMap_rep ihE hr h
              · exact ihV _ cache false r c' ss hr h
    -- decodeElems
    · intro es cache rs c' ss hr h
      cases es with
      | nil =>
        have h2 : some (([] : List PVal), cache) = some (rs, c') := h
        injection h2 with h3; injection h3 with ha hb; subst hb
        exact ⟨[], by simpa using hr⟩
      | cons e es2 =>
        have hb0 : (decodeV f e cache false).bind
            (fun rc => (decodeElems f es2 rc.2).bind
              (fun rcs => some (rc.1 :: rcs.1, rcs.2))) = some (rs, c') := h
        cases h1 : decodeV f e cache false with
        | none => rw [h1] at hb0; exact Option.noConfusion hb0
        | some rc =>
          rw [h1] at hb0
          have hb1 : (decodeElems f es2 rc.2).bind
              (fun rcs => some (rc.1 :: rcs.1, rcs.2)) = some (rs, c') := hb0
          cases h2 : decodeElems f es2 rc.2 with
          | none => rw [h2] at hb1; exact Option.noConfusion hb1
          | some rcs =>
            rw [h2] at hb1
            have h3 : some (rc.1 :: rcs.1, rcs.2) = some (rs, c') := hb1
            injection h3 with h4; injection h4 with ha hbq; subst hbq
            exact repE_step (ihV e cache false rc.1 rc.2 ss hr h1) fun base hbs =>
              ihE es2 rc.2 rcs.1 rcs.2 base hbs h2
    -- decodePairs
    · intro items cache acc m c' ss hr h
      cases items with
      | nil =>
        have h2 : some (acc, cache) = some (m, c') := h
        injection h2 with h3; injection h3 with ha hb; subst hb
        exact ⟨[], by simpa using hr⟩
      | cons k t =>
        cases t with
        | nil =>
          have h2 : some (acc, cache) = some (m, c') := h
          injection h2 with h3; injection h3 with ha hb; subst hb
          exact ⟨[], by simpa using hr⟩
        | cons v rest =>
          have hb0 : (decodeV f k cache true).bind
              (fun krc => (decodeV f v krc.2 false).bind
                (fun vrc => decodePairs f rest vrc.2 (dictInsertP acc krc.1 vrc.1))) =
              some (m, c') := h
          cases h1 : decodeV f k cache true with
          | none => rw [h1] at hb0; exact Option.noConfusion hb0
          | some krc =>
            rw [h1] at hb0
            have hb1 : (decodeV f v krc.2 false).bind
                (fun vrc => decodePairs f rest vrc.2 (dictInsertP acc krc.1 vrc.1)) =
                some (m, c') := hb0
            cases h2 : decodeV f v krc.2 false with
            | none => rw [h2] at hb1; exact Option.noConfusion hb1
            | some vrc =>
              rw [h2] at hb1
              have h3 : decodePairs f rest vrc.2 (dictInsertP acc krc.1 vrc.1) =
                  some (m, c') := hb1
              exact repE_step (ihV k cache true krc.1 krc.2 ss hr h1) fun b hb =>
                repE_step (ihV v krc.2 false vrc.1 vrc.2 b hb h2) fun b2 hb2 =>
                  ihP rest vrc.2 (dictInsertP acc krc.1 vrc.1) m c' b2 hb2 h3
    -- decodeObj
    · intro fields cache r c' ss hr h
      cases fields with
      | nil =>
        simp only [decodeObj] at h
        exact fieldsMap_rep ihF hr h
      | cons p t =>
        obtain ⟨k, payload⟩ := p
        cases t with
        | nil =>
          simp only [decodeObj] at h
          split at h
          · cases hc : cache.cache k false with
            | none => rw [hc] at h; exact Option.noConfusion h
            | some c1 =>
              simp only [hc] at h
              exact repE_step (cache_repE hr hc) fun b hb =>
                ihTV (k.drop 2) payload c1 r c' b hb h
          · exact fieldsMap_rep ihF hr h
        | cons q t2 =>
          simp only [decodeObj] at h
          exact fieldsMap_rep ihF hr h
    -- decodeFields
    · intro fields cache acc m c' ss hr h
      cases fields with
      | nil =>
        have h2 : some (acc, cache) = some (m, c') := h
        injection h2 with h3; injection h3 with ha hb; subst hb
        exact ⟨[], by simpa using hr⟩
      | cons p rest =>
        obtain ⟨k, v⟩ := p
        have hb0 : (decodeStr k cache true).bind
            (fun krc => (decodeV f v krc.2 false).bind
              (fun vrc => decodeFields f rest vrc.2 (dictInsertP acc krc.1 vrc.1))) =
            some (m, c') := h
        cases h1 : decodeStr k cache true with
        | none => rw [h1] at hb0; exact Option.noConfusion hb0
        | some krc =>
          rw [h1] at hb0
          have hb1 : (decodeV f v krc.2 false).bind
              (fun vrc => decodeFields f rest vrc.2 (dictInsertP acc krc.1 vrc.1)) =
              some (m, c') := hb0
          cases h2 : decodeV f v krc.2 false with
          | none => rw [h2] at hb1; exact Option.noConfusion hb1
          | some vrc =>
            rw [h2] at hb1
            have h3 : decodeFields f rest vrc.2 (dictInsertP acc krc.1 vrc.1) =
                some (m, c') := hb1
            exact repE_step (decodeStr_repE hr h1) fun b hb =>
              repE_step (ihV v krc.2 false vrc.1 vrc.2 b hb h2) fun b2 hb2 =>
                ihF rest vrc.2 (dictInsertP acc krc.1 vrc.1) m c' b2 hb2 h3
    -- decodeTV
    · intro tag payload cache r c' ss hr h
      simp only [decodeTV] at h
      split at h
      · split at h <;>
          (injection h with h3; injection h3 with ha hb; subst hb
           exact ⟨[], by simpa using hr⟩)
      · split at h
        · split at h <;> exact elemsMap_rep ihE hr h
        · split at h
          · split at h <;> exact elemsMap_rep ihE hr h
          · split at h
            · split at h <;>
                first
                | exact pairsMap_rep ihP hr h
                | exact ihV _ cache false r c' ss hr h
            · split at h
              · split at h <;> exact elemsMap_rep ihE hr h
              · exact ihV _ cache false r c' ss hr h

/-- The pairwise loop stops before an unpaired trailing element: appending
one more element to an even-length item list changes nothing — the element
is never decoded, the cache never touched. -/
theorem decodePairs_drop (e : JVal) :
    ∀ (f : Nat) (es : List JVal), es.length % 2 = 0 → ∀ (cache : Cache)
      (acc : List (PVal × PVal)),
      decodePairs f (es ++ [e]) cache acc = decodePairs f es cache acc := by
  intro f
  induction f with
  | zero => intro es _ cache acc; rfl
  | succ f ih =>
    intro es hev cache acc
    cases es with
    | nil => rfl
    | cons k t =>
      cases t with
      | nil => simp at hev
      | cons v rest =>
        have hev2 : rest.length % 2 = 0 := by simp at hev; omega
        show (decodeV f k cache true).bind
            (fun krc => (decodeV f v krc.2 false).bind
              (fun vrc => decodePairs f (rest ++ [e]) vrc.2
                (dictInsertP acc krc.1 vrc.1))) =
          (decodeV f k cache true).bind
            (fun krc => (decodeV f v krc.2 false).bind
              (fun vrc => decodePairs f rest vrc.2 (dictInsertP acc krc.1 vrc.1)))
        cases h1 : decodeV f k cache true with
        | none => rfl
        | some krc =>
          show (decodeV f v krc.2 false).bind
              (fun vrc => decodePairs f (rest ++ [e]) vrc.2
                (dictInsertP acc krc.1 vrc.1)) =
            (decodeV f v krc.2 false).bind
              (fun vrc => decodePairs f rest vrc.2 (dictInsertP acc krc.1 vrc.1))
          cases h2 : decodeV f v krc.2 false with
          | none => rfl
          | some vrc =>
            show decodePairs f (rest ++ [e]) vrc.2 (dictInsertP acc krc.1 vrc.1) =
              decodePairs f rest vrc.2 (dictInsertP acc krc.1 vrc.1)
            exact ih rest hev2 vrc.2 (dictInsertP acc krc.1 vrc.1)

/-- Claim C9: for every compact map array `["^ ", e1, ..., en]` with an odd
number of elements after the sentinel, and for every `cmap` payload of odd
length (compact or verbose), the unpaired trailing element is silently
dropped: decoding equals decoding the same input with the trailing element
removed — same result and same cache, so the trailing element is never
decoded and never cached.  (`es ++ [e]` with `es` of even length ranges over
exactly the odd-length lists; the equality is proved for every fuel, hence
in particular at the entry point's.) -/
theorem c9_odd_trailing_dropped (f : Nat) (es : List JVal) (e : JVal)
    (c : Cache) (hev : es.length % 2 = 0) :
    (decodeV f (JVal.arr (JVal.str (pystr "^ ") :: (es ++ [e]))) c false =
      decodeV f (JVal.arr (JVal.str (pystr "^ ") :: es)) c false) ∧
    (decodeV f (JVal.arr [JVal.str (pystr "~#cmap"), JVal.arr (es ++ [e])]) c false =
      decodeV f (JVal.arr [JVal.str (pystr "~#cmap"), JVal.arr es]) c false) ∧
    (decodeV f (JVal.obj [(pystr "~#cmap", JVal.arr (es ++ [e]))]) c false =
      decodeV f (JVal.obj [(pystr "~#cmap", JVal.arr es)]) c false) := by
  refine ⟨?_, ?_, ?_⟩
  · match f with
    | 0 => rfl
    | 1 => rfl
    | f2 + 2 =>
      show (decodePairs f2 (es ++ [e]) c []).map
          (fun (rc : List (PVal × PVal) × Cache) => (PVal.map rc.1, rc.2)) =
        (decodePairs f2 es c []).map
          (fun (rc : List (PVal × PVal) × Cache) => (PVal.map rc.1, rc.2))
      rw [decodePairs_drop e f2 es hev c []]
  · match f with
    | 0 => rfl
    | 1 => rfl
    | 2 => rfl
    | f3 + 3 =>
      show (match c.cache (pystr "~#cmap") false with
          | none => none
          | some c1 =>
            decodeTagged (f3 + 1) (pystr "~#cmap")
              [JVal.str (pystr "~#cmap"), JVal.arr (es ++ [e])]
              [JVal.arr (es ++ [e])] c1) =
        (match c.cache (pystr "~#cmap") false with
          | none => none
          | some c1 =>
            decodeTagged (f3 + 1) (pystr "~#cmap")
              [JVal.str (pystr "~#cmap"), JVal.arr es] [JVal.arr es] c1)
      cases hc : c.cache (pystr "~#cmap") false with
      | none => rfl
      | some c1 =>
        show (decodePairs f3 (es ++ [e]) c1 []).map
            (fun (rc : List (PVal × PVal) × Cache) => (PVal.map rc.1, rc.2)) =
          (decodePairs f3 es c1 []).map
            (fun (rc : List (PVal × PVal) × Cache) => (PVal.map rc.1, rc.2))
        rw [decodePairs_drop e f3 es hev c1 []]
  · match f with
    | 0 => rfl
    | 1 => rfl
    | 2 => rfl
    | f3 + 3 =>
      show (match c.cache (pystr "~#cmap") false with
          | none => none
          | some c1 =>
            decodeTV (f3 + 1) ((pystr "~#cmap").drop 2) (JVal.arr (es ++ [e])) c1) =
        (match c.cache (pystr "~#cmap") false with
          | none => none
          | some c1 =>
            decodeTV (f3 + 1) ((pystr "~#cmap").drop 2) (JVal.arr es) c1)
      cases hc : c.cache (pystr "~#cmap") false with
      | none => rfl
      | some c1 =>
        show (decodePairs f3 (es ++ [e]) c1 []).map
            (fun (rc : List (PVal × PVal) × Cache) => (PVal.map rc.1, rc.2)) =
          (decodePairs f3 es c1 []).map
            (fun (rc : List (PVal × PVal) × Cache) => (PVal.map rc.1, rc.2))
        rw [decodePairs_drop e f3 es hev c1 []]

/-- Witness for C9 at a concrete input: dropping the unpaired trailing `7`
from `["^ ", "~:a", 1, 7]` leaves the decode unchanged. -/
theorem c9_odd_trailing_dropped_witness :
    decodeV 10 (JVal.arr [JVal.str (pystr "^ "), JVal.str (pystr "~:a"),
      JVal.int 1, JVal.int 7]) Cache.empty false =
    decodeV 10 (JVal.arr [JVal.str (pystr "^ "), JVal.str (pystr "~:a"),
      JVal.int 1]) Cache.empty false :=
  (c9_odd_trailing_dropped 10 [JVal.str (pystr "~:a"), JVal.int 1] (JVal.int 7)
    Cache.empty (by decide)).1

/-- A non-reference string decodes to a value that does not depend on the
cache (only the cache side of the result can differ). -/
theorem decodeStr_indep {s : List Nat} {c d : Cache} {ak : Bool} {r rv : PVal}
    {c' d' : Cache} (hnr : isCacheRef s = false)
    (h1 : decodeStr s c ak = some (r, c'))
    (h2 : decodeStr s d ak = some (rv, d')) : r = rv := by
  unfold decodeStr at h1 h2
  rw [hnr] at h1 h2
  simp only [Bool.false_eq_true, if_false] at h1 h2
  cases hc1 : c.cache s ak with
  | none => rw [hc1] at h1; exact Option.noConfusion h1
  | some c1 =>
    cases hc2 : d.cache s ak with
    | none => rw [hc2] at h2; exact Option.noConfusion h2
    | some d1 =>
      simp only [hc1] at h1
      simp only [hc2] at h2
      by_cases hts : isTaggedShape s = true
      · rw [if_pos hts] at h1
        rw [if_pos hts] at h2
        cases hp : parseTagged s with
        | none => rw [hp] at h1; exact Option.noConfusion h1
        | some p =>
          rw [hp] at h1; rw [hp] at h2
          simp at h1 h2
          rw [← h1.1, ← h2.1]
      · rw [if_neg hts] at h1
        rw [if_neg hts] at h2
        injection h1 with h1'; injection h2 with h2'
        injection h1' with h1a h1b; injection h2' with h2a h2b
        rw [← h1a, ← h2a]

theorem elemsMap_indep {f g : Nat}
    (ihE : ∀ g es c d rs c' ss2 d', refFreeL es = true →
      decodeElems f es c = some (rs, c') → decodeElems g es d = some (ss2, d') →
      rs = ss2)
    {es : List JVal} {c d : Cache} {r s' : PVal} {c' d' : Cache}
    (hx : refFreeL es = true)
    (h1 : (decodeElems f es c).map
      (fun (rc : List PVal × Cache) => (PVal.list rc.1, rc.2)) = some (r, c'))
    (h2 : (decodeElems g es d).map
      (fun (rc : List PVal × Cache) => (PVal.list rc.1, rc.2)) = some (s', d')) :
    r = s' := by
  cases he1 : decodeElems f es c with
  | none => rw [he1] at h1; exact Option.noConfusion h1
  | some ec1 =>
    cases he2 : decodeElems g es d with
    | none => rw [he2] at h2; exact Option.noConfusion h2
    | some ec2 =>
      rw [he1] at h1; rw [he2] at h2
      simp at h1 h2
      rw [← h1.1, ← h2.1, ihE g es c d ec1.1 ec1.2 ec2.1 ec2.2 hx (by simpa using he1)
        (by simpa using he2)]

theorem pairsMap_indep {f g : Nat}
    (ihP : ∀ g items c d acc m c' m2 d', refFreeL items = true →
      decodePairs f items c acc = some (m, c') →
      decodePairs g items d acc = some (m2, d') → m = m2)
    {items : List JVal} {c d : Cache} {acc : List (PVal × PVal)} {r s' : PVal}
    {c' d' : Cache} (hx : refFreeL items = true)
    (h1 : (decodePairs f items c acc).map
      (fun (rc : List (PVal × PVal) × Cache) => (PVal.map rc.1, rc.2)) = some (r, c'))
    (h2 : (decodePairs g items d acc).map
      (fun (rc : List (PVal × PVal) × Cache) => (PVal.map rc.1, rc.2)) = some (s', d')) :
    r = s' := by
  cases he1 : decodePairs f items c acc with
  | none => rw [he1] at h1; exact Option.noConfusion h1
  | some mc1 =>
    cases he2 : decodePairs g items d acc with
    | none => rw [he2] at h2; exact Option.noConfusion h2
    | some mc2 =>
      rw [he1] at h1; rw [he2] at h2
      simp at h1 h2
      rw [← h1.1, ← h2.1, ihP g items c d acc mc1.1 mc1.2 mc2.1 mc2.2 hx
        (by simpa using he1) (by simpa using he2)]

theorem fieldsMap_indep {f g : Nat}
    (ihF : ∀ g fields c d acc m c' m2 d', refFreeF fields = true →
      decodeFields f fields c acc = some (m, c') →
      decodeFields g fields d acc = some (m2, d') → m = m2)
    {fields : List (List Nat × JVal)} {c d : Cache} {acc : List (PVal × PVal)}
    {r s' : PVal} {c' d' : Cache} (hx : refFreeF fields = true)
    (h1 : (decodeFields f fields c acc).map
      (fun (rc : List (PVal × PVal) × Cache) => (PVal.map rc.1, rc.2)) = some (r, c'))
    (h2 : (decodeFields g fields d acc).map
      (fun (rc : List (PVal × PVal) × Cache) => (PVal.map rc.1, rc.2)) = some (s', d')) :
    r = s' := by
  cases he1 : decodeFields f fields c acc with
  | none => rw [he1] at h1; exact Option.noConfusion h1
  | some mc1 =>
    cases he2 : decodeFields g fields d acc with
    | none => rw [he2] at h2; exact Option.noConfusion h2
    | some mc2 =>
      rw [he1] at h1; rw [he2] at h2
      simp at h1 h2
      rw [← h1.1, ← h2.1, ihF g fields c d acc mc1.1 mc1.2 mc2.1 mc2.2 hx
        (by simpa using he1) (by simpa using he2)]

/-- On reference-free input the decoded value does not depend on the cache
passed in (the caches may advance differently; only the produced values are
compared).  Stated for two arbitrary fuels so it applies to any two runs. -/
theorem decode_indep (f : Nat) :
    (∀ g v c d ak r c' s' d', refFree v = true →
      decodeV f v c ak = some (r, c') → decodeV g v d ak = some (s', d') →
      r = s') ∧
    (∀ g l c d r c' s' d', refFreeL l = true →
      decodeArr f l c = some (r, c') → decodeArr g l d = some (s', d') →
      r = s') ∧
    (∀ g ts l rest c d r c' s' d', refFreeL l = true → refFreeL rest = true →
      decodeTagged f ts l rest c = some (r, c') →
      decodeTagged g ts l rest d = some (s', d') → r = s') ∧
    (∀ g es c d rs c' ss2 d', refFreeL es = true →
      decodeElems f es c = some (rs, c') → decodeElems g es d = some (ss2, d') →
      rs = ss2) ∧
    (∀ g items c d acc m c' m2 d', refFreeL items = true →
      decodePairs f items c acc = some (m, c') →
      decodePairs g items d acc = some (m2, d') → m = m2) ∧
    (∀ g fields c d r c' s' d', refFreeF fields = true →
      decodeObj f fields c = some (r, c') → decodeObj g fields d = some (s', d') →
      r = s') ∧
    (∀ g fields c d acc m c' m2 d', refFreeF fields = true →
      decodeFields f fields c acc = some (m, c') →
      decodeFields g fields d acc = some (m2, d') → m = m2) ∧
    (∀ g tag payload c d r c' s' d', refFree payload = true →
      decodeTV f tag payload c = some (r, c') →
      decodeTV g tag payload d = some (s', d') → r = s') := by
  induction f with
  | zero =>
    refine ⟨?_, ?_, ?_, ?_, ?_, ?_, ?_, ?_⟩ <;> intros <;>
      (rename_i hf hg; exact Option.noConfusion hf)
  | succ f ih =>
    obtain ⟨ihV, ihA, ihT, ihE, ihP, ihO, ihF, ihTV⟩ := ih
    refine ⟨?_, ?_, ?_, ?_, ?_, ?_, ?_, ?_⟩
    -- decodeV
    · intro g v c d ak r c' s' d' hx h1 h2
      cases g with
      | zero => exact Option.noConfusion h2
      | succ g =>
        cases v with
        | str s =>
          exact decodeStr_indep (by simpa [refFree] using hx) h1 h2
        | arr l =>
          simp only [decodeV] at h1 h2
          exact ihA g l c d r c' s' d' (by simpa [refFree] using hx) h1 h2
        | obj fields =>
          simp only [decodeV] at h1 h2
          exact ihO g fields c d r c' s' d' (by simpa [refFree] using hx) h1 h2
        | null =>
          have e1 : some ((PVal.null : PVal), c) = some (r, c') := h1
          have e2 : some ((PVal.null : PVal), d) = some (s', d') := h2
          injection e1 with e1'; injection e2 with e2'
          injection e1' with e1a e1b; injection e2' with e2a e2b
          rw [← e1a, ← e2a]
        | bool b =>
          have e1 : some ((PVal.bool b : PVal), c) = some (r, c') := h1
          have e2 : some ((PVal.bool b : PVal), d) = some (s', d') := h2
          injection e1 with e1'; injection e2 with e2'
          injection e1' with e1a e1b; injection e2' with e2a e2b
          rw [← e1a, ← e2a]
        | int n =>
          have e1 : some ((PVal.int n : PVal), c) = some (r, c') := h1
          have e2 : some ((PVal.int n : PVal), d) = some (s', d') := h2
          injection e1 with e1'; injection e2 with e2'
          injection e1' with e1a e1b; injection e2' with e2a e2b
          rw [← e1a, ← e2a]
        | float x =>
          have e1 : some ((PVal.float x : PVal), c) = some (r, c') := h1
          have e2 : some ((PVal.float x : PVal), d) = some (s', d') := h2
          injection e1 with e1'; injection e2 with e2'
          injection e1' with e1a e1b; injection e2' with e2a e2b
          rw [← e1a, ← e2a]
    -- decodeArr
    · intro g l c d r c' s' d' hx h1 h2
      cases g with
      | zero => exact Option.noConfusion h2
      | succ g =>
        cases l with
        | nil =>
          have e1 : some ((PVal.list [] : PVal), c) = some (r, c') := h1
          have e2 : some ((PVal.list [] : PVal), d) = some (s', d') := h2
          injection e1 with e1'; injection e2 with e2'
          injection e1' with e1a e1b; injection e2' with e2a e2b
          rw [← e1a, ← e2a]
        | cons first rest =>
          cases first with
          | str s =>
            have hx2 := hx
            simp only [refFreeL, refFree, Bool.and_eq_true, Bool.not_eq_true'] at hx2
            obtain ⟨hs, hrest⟩ := hx2
            simp only [decodeArr] at h1 h2
            by_cases hsent : s = pystr "^ "
            · rw [hsent] at hs
              exact absurd hs (by decide)
            · rw [if_neg hsent] at h1
              rw [if_neg hsent] at h2
              by_cases htag : isTagLit s = true
              · rw [if_pos htag] at h1
                rw [if_pos htag] at h2
                cases hc1 : c.cache s false with
                | none => rw [hc1] at h1; exact Option.noConfusion h1
                | some c1 =>
                  cases hc2 : d.cache s false with
                  | none => rw [hc2] at h2; exact Option.noConfusion h2
                  | some d1 =>
                    simp only [hc1] at h1
                    simp only [hc2] at h2
                    exact ihT g s (JVal.str s :: rest) rest c1 d1 r c' s' d'
                      hx hrest h1 h2
              · rw [if_neg htag] at h1
                rw [if_neg htag] at h2
                rw [hs] at h1 h2
                simp only [Bool.false_eq_true, if_false] at h1 h2
                exact elemsMap_indep ihE hx h1 h2
          | null =>
            simp only [decodeArr] at h1 h2
            exact elemsMap_indep ihE hx h1 h2
          | bool b =>
            simp only [decodeArr] at h1 h2
            exact elemsMap_indep ihE hx h1 h2
          | int n =>
            simp only [decodeArr] at h1 h2
            exact elemsMap_indep ihE hx h1 h2
          | float xq =>
            simp only [decodeArr] at h1 h2
            exact elemsMap_indep ihE hx h1 h2
          | arr l2 =>
            simp only [decodeArr] at h1 h2
            exact elemsMap_indep ihE hx h1 h2
          | obj fs =>
            simp only [decodeArr] at h1 h2
            exact elemsMap_indep ihE hx h1 h2
    -- decodeTagged
    · intro g ts l rest c d r c' s' d' hl hrest h1 h2
      cases g with
      | zero => exact Option.noConfusion h2
      | succ g =>
        cases rest with
        | nil =>
          simp only [decodeTagged] at h1 h2
          exact elemsMap_indep ihE hl h1 h2
        | cons payload rest2 =>
          have hx2 := hrest
          simp only [refFreeL, Bool.and_eq_true] at hx2
          obtain ⟨hp, hrest2⟩ := hx2
          simp only [decodeTagged] at h1 h2
          by_cases hset : ts.drop 2 = pystr "set"
          · rw [if_pos hset] at h1
            rw [if_pos hset] at h2
            cases payload <;>
              exact elemsMap_indep ihE (by first | simpa [refFree] using hp | simp [refFreeL, hp]) h1 h2
          · rw [if_neg hset] at h1
            rw [if_neg hset] at h2
            by_cases hlist : ts.drop 2 = pystr "list"
            · rw [if_pos hlist] at h1
              rw [if_pos hlist] at h2
              cases payload <;>
                exact elemsMap_indep ihE (by first | simpa [refFree] using hp | simp [refFreeL, hp]) h1 h2
            · rw [if_neg hlist] at h1
              rw [if_neg hlist] at h2
              by_cases hcm : ts.drop 2 = pystr "cmap"
              · rw [if_pos hcm] at h1
                rw [if_pos hcm] at h2
                cases payload <;>
                  first
                  | exact pairsMap_indep ihP (by first | simpa [refFree] using hp | simp [refFreeL, hp]) h1 h2
                  | exact ihV g _ c d false r c' s' d' hp h1 h2
              · rw [if_neg hcm] at h1
                rw [if_neg hcm] at h2
                by_cases hos : ts.drop 2 = pystr "ordered-set"
                · rw [if_pos hos] at h1
                  rw [if_pos hos] at h2
                  cases payload <;>
                    exact elemsMap_indep ihE (by first | simpa [refFree] using hp | simp [refFreeL, hp]) h1 h2
                · rw [if_neg hos] at h1
                  rw [if_neg hos] at h2
                  exact ihV g payload c d false r c' s' d' hp h1 h2
    -- decodeElems
    · intro g es c d rs c' ss2 d' hx h1 h2
      cases g with
      | zero => exact Option.noConfusion h2
      | succ g =>
        cases es with
        | nil =>
          have e1 : some (([] : List PVal), c) = some (rs, c') := h1
          have e2 : some (([] : List PVal), d) = some (ss2, d') := h2
          injection e1 with e1'; injection e2 with e2'
          injection e1' with e1a e1b; injection e2' with e2a e2b
          rw [← e1a, ← e2a]
        | cons e es2 =>
          have hx2 := hx
          simp only [refFreeL, Bool.and_eq_true] at hx2
          obtain ⟨he, hes2⟩ := hx2
          have hb1 : (decodeV f e c false).bind
              (fun rc => (decodeElems f es2 rc.2).bind
                (fun rcs => some (rc.1 :: rcs.1, rcs.2))) = some (rs, c') := h1
          have hb2 : (decodeV g e d false).bind
              (fun rc => (decodeElems g es2 rc.2).bind
                (fun rcs => some (rc.1 :: rcs.1, rcs.2))) = some (ss2, d') := h2
          cases hv1 : decodeV f e c false with
          | none => rw [hv1] at hb1; exact Option.noConfusion hb1
          | some rc1 =>
            cases hv2 : decodeV g e d false with
            | none => rw [hv2] at hb2; exact Option.noConfusion hb2
            | some rc2 =>
              rw [hv1] at hb1; rw [hv2] at hb2
              have hb1' : (decodeElems f es2 rc1.2).bind
                  (fun rcs => some (rc1.1 :: rcs.1, rcs.2)) = some (rs, c') := hb1
              have hb2' : (decodeElems g es2 rc2.2).bind
                  (fun rcs => some (rc2.1 :: rcs.1, rcs.2)) = some (ss2, d') := hb2
              cases hE1 : decodeElems f es2 rc1.2 with
              | none => rw [hE1] at hb1'; exact Option.noConfusion hb1'
              | some rcs1 =>
                cases hE2 : decodeElems g es2 rc2.2 with
                | none => rw [hE2] at hb2'; exact Option.noConfusion hb2'
                | some rcs2 =>
                  rw [hE1] at hb1'; rw [hE2] at hb2'
                  have e1 : some (rc1.1 :: rcs1.1, rcs1.2) = some (rs, c') := hb1'
                  have e2 : some (rc2.1 :: rcs2.1, rcs2.2) = some (ss2, d') := hb2'
                  injection e1 with e1'; injection e2 with e2'
                  injection e1' with e1a e1b; injection e2' with e2a e2b
                  rw [← e1a, ← e2a,
                    ihV g e c d false rc1.1 rc1.2 rc2.1 rc2.2 he hv1 hv2,
                    ihE g es2 rc1.2 rc2.2 rcs1.1 rcs1.2 rcs2.1 rcs2.2 hes2 hE1 hE2]
    -- decodePairs
    · intro g items c d acc m c' m2 d' hx h1 h2
      cases g with
      | zero => exact Option.noConfusion h2
      | succ g =>
        cases items with
        | nil =>
          have e1 : some (acc, c) = some (m, c') := h1
          have e2 : some (acc, d) = some (m2, d') := h2
          injection e1 with e1'; injection e2 with e2'
          injection e1' with e1a e1b; injection e2' with e2a e2b
          rw [← e1a, ← e2a]
        | cons k t =>
          cases t with
          | nil =>
            have e1 : some (acc, c) = some (m, c') := h1
            have e2 : some (acc, d) = some (m2, d') := h2
            injection e1 with e1'; injection e2 with e2'
            injection e1' with e1a e1b; injection e2' with e2a e2b
            rw [← e1a, ← e2a]
          | cons v rest =>
            have hx2 := hx
            simp only [refFreeL, Bool.and_eq_true] at hx2
            obtain ⟨hk, hv, hrest⟩ := hx2
            have hb1 : (decodeV f k c true).bind
                (fun krc => (decodeV f v krc.2 false).bind
                  (fun vrc => decodePairs f rest vrc.2
                    (dictInsertP acc krc.1 vrc.1))) = some (m, c') := h1
            have hb2 : (decodeV g k d true).bind
                (fun krc => (decodeV g v krc.2 false).bind
                  (fun vrc => decodePairs g rest vrc.2
                    (dictInsertP acc krc.1 vrc.1))) = some (m2, d') := h2
            cases hk1 : decodeV f k c true with
            | none => rw [hk1] at hb1; exact Option.noConfusion hb1
            | some krc1 =>
              cases hk2 : decodeV g k d true with
              | none => rw [hk2] at hb2; exact Option.noConfusion hb2
              | some krc2 =>
                rw [hk1] at hb1; rw [hk2] at hb2
                have hb1' : (decodeV f v krc1.2 false).bind
                    (fun vrc => decodePairs f rest vrc.2
                      (dictInsertP acc krc1.1 vrc.1)) = some (m, c') := hb1
                have hb2' : (decodeV g v krc2.2 false).bind
                    (fun vrc => decodePairs g rest vrc.2
                      (dictInsertP acc krc2.1 vrc.1)) = some (m2, d') := hb2
                cases hv1 : decodeV f v krc1.2 false with
                | none => rw [hv1] at hb1'; exact Option.noConfusion hb1'
                | some vrc1 =>
                  cases hv2 : decodeV g v krc2.2 false with
                  | none => rw [hv2] at hb2'; exact Option.noConfusion hb2'
                  | some vrc2 =>
                    rw [hv1] at hb1'; rw [hv2] at hb2'
                    have h3 : decodePairs f rest vrc1.2
                        (dictInsertP acc krc1.1 vrc1.1) = some (m, c') := hb1'
                    have h4 : decodePairs g rest vrc2.2
                        (dictInsertP acc krc2.1 vrc2.1) = some (m2, d') := hb2'
                    rw [← ihV g k c d true krc1.1 krc1.2 krc2.1 krc2.2 hk hk1 hk2,
                      ← ihV g v krc1.2 krc2.2 false vrc1.1 vrc1.2 vrc2.1 vrc2.2
                        hv hv1 hv2] at h4
                    exact ihP g rest vrc1.2 vrc2.2
                      (dictInsertP acc krc1.1 vrc1.1) m c' m2 d' hrest h3 h4
    -- decodeObj
    · intro g fields c d r c' s' d' hx h1 h2
      cases g with
      | zero => exact Option.noConfusion h2
      | succ g =>
        cases fields with
        | nil =>
          simp only [decodeObj] at h1 h2
          exact fieldsMap_indep ihF hx h1 h2
        | cons p t =>
          obtain ⟨k, payload⟩ := p
          cases t with
          | nil =>
            have hx2 := hx
            simp only [refFreeF] at hx2
            rw [Bool.and_true, Bool.and_eq_true, Bool.not_eq_true'] at hx2
            obtain ⟨hk, hp⟩ := hx2
            simp only [decodeObj] at h1 h2
            by_cases htag : isTagLit k = true
            · rw [if_pos htag] at h1
              rw [if_pos htag] at h2
              cases hc1 : c.cache k false with
              | none => rw [hc1] at h1; exact Option.noConfusion h1
              | some c1 =>
                cases hc2 : d.cache k false with
                | none => rw [hc2] at h2; exact Option.noConfusion h2
                | some d1 =>
                  simp only [hc1] at h1
                  simp only [hc2] at h2
                  exact ihTV g (k.drop 2) payload c1 d1 r c' s' d' hp h1 h2
            · rw [if_neg htag] at h1
              rw [if_neg htag] at h2
              exact fieldsMap_indep ihF hx h1 h2
          | cons q t2 =>
            simp only [decodeObj] at h1 h2
            exact fieldsMap_indep ihF hx h1 h2
    -- decodeFields
    · intro g fields c d acc m c' m2 d' hx h1 h2
      cases g with
      | zero => exact Option.noConfusion h2
      | succ g =>
        cases fields with
        | nil =>
          have e1 : some (acc, c) = some (m, c') := h1
          have e2 : some (acc, d) = some (m2, d') := h2
          injection e1 with e1'; injection e2 with e2'
          injection e1' with e1a e1b; injection e2' with e2a e2b
          rw [← e1a, ← e2a]
        | cons p rest =>
          obtain ⟨k, v⟩ := p
          have hx2 := hx
          simp only [refFreeF] at hx2
          rw [Bool.and_eq_true, Bool.and_eq_true, Bool.not_eq_true'] at hx2
          obtain ⟨⟨hk, hv⟩, hrest⟩ := hx2
          have hb1 : (decodeStr k c true).bind
              (fun krc => (decodeV f v krc.2 false).bind
                (fun vrc => decodeFields f rest vrc.2
                  (dictInsertP acc krc.1 vrc.1))) = some (m, c') := h1
          have hb2 : (decodeStr k d true).bind
              (fun krc => (decodeV g v krc.2 false).bind
                (fun vrc => decodeFields g rest vrc.2
                  (dictInsertP acc krc.1 vrc.1))) = some (m2, d') := h2
          cases hk1 : decodeStr k c true with
          | none => rw [hk1] at hb1; exact Option.noConfusion hb1
          | some krc1 =>
            cases hk2 : decodeStr k d true with
            | none => rw [hk2] at hb2; exact Option.noConfusion hb2
            | some krc2 =>
              rw [hk1] at hb1; rw [hk2] at hb2
              have hb1' : (decodeV f v krc1.2 false).bind
                  (fun vrc => decodeFields f rest vrc.2
                    (dictInsertP acc krc1.1 vrc.1)) = some (m, c') := hb1
              have hb2' : (decodeV g v krc2.2 false).bind
                  (fun vrc => decodeFields g rest vrc.2
                    (dictInsertP acc krc2.1 vrc.1)) = some (m2, d') := hb2
              cases hv1 : decodeV f v krc1.2 false with
              | none => rw [hv1] at hb1'; exact Option.noConfusion hb1'
              | some vrc1 =>
                cases hv2 : decodeV g v krc2.2 false with
                | none => rw [hv2] at hb2'; exact Option.noConfusion hb2'
                | some vrc2 =>
                  rw [hv1] at hb1'; rw [hv2] at hb2'
                  have h3 : decodeFields f rest vrc1.2
                      (dictInsertP acc krc1.1 vrc1.1) = some (m, c') := hb1'
                  have h4 : decodeFields g rest vrc2.2
                      (dictInsertP acc krc2.1 vrc2.1) = some (m2, d') := hb2'
                  rw [← decodeStr_indep hk hk1 hk2,
                    ← ihV g v krc1.2 krc2.2 false vrc1.1 vrc1.2 vrc2.1 vrc2.2
                      hv hv1 hv2] at h4
                  exact ihF g rest vrc1.2 vrc2.2
                    (dictInsertP acc krc1.1 vrc1.1) m c' m2 d' hrest h3 h4
    -- decodeTV
    · intro g tag payload c d r c' s' d' hp h1 h2
      cases g with
      | zero => exact Option.noConfusion h2
      | succ g =>
        simp only [decodeTV] at h1 h2
        by_cases huri : tag = pystr "uri"
        · rw [if_pos huri] at h1
          rw [if_pos huri] at h2
          cases payload <;>
            (injection h1 with h1'; injection h2 with h2';
             injection h1' with h1a h1b; injection h2' with h2a h2b;
             rw [← h1a, ← h2a])
        · rw [if_neg huri] at h1
          rw [if_neg huri] at h2
          by_cases hset : tag = pystr "set"
          · rw [if_pos hset] at h1
            rw [if_pos hset] at h2
            cases payload <;>
              exact elemsMap_indep ihE (by first | simpa [refFree] using hp | simp [refFreeL, hp]) h1 h2
          · rw [if_neg hset] at h1
            rw [if_neg hset] at h2
            by_cases hlist : tag = pystr "list"
            · rw [if_pos hlist] at h1
              rw [if_pos hlist] at h2
              cases payload <;>
                exact elemsMap_indep ihE (by first | simpa [refFree] using hp | simp [refFreeL, hp]) h1 h2
            · rw [if_neg hlist] at h1
              rw [if_neg hlist] at h2
              by_cases hcm : tag = pystr "cmap"
              · rw [if_pos hcm] at h1
                rw [if_pos hcm] at h2
                cases payload <;>
                  first
                  | exact pairsMap_indep ihP (by first | simpa [refFree] using hp | simp [refFreeL, hp]) h1 h2
                  | exact ihV g _ c d false r c' s' d' hp h1 h2
              · rw [if_neg hcm] at h1
                rw [if_neg hcm] at h2
                by_cases hos : tag = pystr "ordered-set"
                · rw [if_pos hos] at h1
                  rw [if_pos hos] at h2
                  cases payload <;>
                    exact elemsMap_indep ihE (by first | simpa [refFree] using hp | simp [refFreeL, hp]) h1 h2
                · rw [if_neg hos] at h1
                  rw [if_neg hos] at h2
                  exact ihV g payload c d false r c' s' d' hp h1 h2

/-! ## Claim theorems -/

/-- Claim C3: for every decode invocation, the cache-slot indices assigned
during the depth-first walk are exactly 0, 1, 2, … in the order cacheable
strings are registered, and a slot, once assigned, is never reused or
mutated.  Formally: from any faithfully represented table (in particular the
fresh table `CacheRep Cache.empty []` the entry point creates), the walk
returns a table representing `ss ++ ts` — the old slots are untouched, and
`CacheRep` forces the new slots to sit under `refFor` of the consecutive
indices `|ss|, |ss|+1, …` in registration order.  Registration happens at
each cacheable encounter; on wire-conformant input, where a producer sends
repeats as references, these are exactly the first encounters. -/
theorem c3_cache_slots_consecutive (f : Nat) (v : JVal) (cache : Cache)
    (ak : Bool) (r : PVal) (c' : Cache) (ss : List (List Nat))
    (hr : CacheRep cache ss) (h : decodeV f v cache ak = some (r, c')) :
    ∃ ts, CacheRep c' (ss ++ ts) :=
  (decode_rep f).1 v cache ak r c' ss hr h

/-- Witness for C3: decoding the keyword `"~:aaaa"` from the fresh cache
yields a table representing exactly `["~:aaaa"]` (slot 0 under `"^0"`). -/
theorem c3_cache_slots_consecutive_witness :
    ∃ ts, CacheRep ⟨[([94, 48], pystr "~:aaaa")], 1⟩ ([] ++ ts) :=
  c3_cache_slots_consecutive 5 (JVal.str (pystr "~:aaaa")) Cache.empty false
    (PVal.str (pystr "aaaa")) ⟨[([94, 48], pystr "~:aaaa")], 1⟩ [] ⟨rfl, rfl⟩ rfl

/-- Counterexample to claim C5 as stated: the claim's example string
`"~:ab"` has length 4, not less than 4, and decoding it does produce a cache
slot (slot 0, advancing the counter to 1). -/
theorem c5_counterexample :
    (pystr "~:ab").length = 4 ∧
    decodeStr (pystr "~:ab") Cache.empty false =
      some (PVal.str (pystr "ab"), ⟨[([94, 48], pystr "~:ab")], 1⟩) :=
  ⟨rfl, rfl⟩

/-- Claim C5 (amended): for every string of length < 4 (e.g. `"~:a"`;
the claim's example `"~:ab"` has length 4 and is cacheable), decoding the
string neither produces a cache slot nor consumes a cache index — the whole
cache, table and next-index counter, is returned unchanged — so repeated
occurrences decode independently with the same result (second conjunct:
the same call with the unchanged cache gives the same value). -/
theorem c5_short_string_no_slot (s : List Nat) (cache : Cache) (ak : Bool)
    (r : PVal) (c' : Cache) (hlen : s.length < 4)
    (h : decodeStr s cache ak = some (r, c')) :
    c' = cache ∧ decodeStr s cache ak = some (r, cache) := by
  have hcc : cache.cache s ak = some cache := by
    unfold Cache.cache; rw [if_pos hlen]
  suffices hc : c' = cache by
    refine ⟨hc, ?_⟩
    rw [hc] at h
    exact h
  unfold decodeStr at h
  split at h
  · cases hres : cache.resolve s with
    | some rr =>
      simp only [hres] at h
      cases hp : parseTagged rr with
      | none => rw [hp] at h; exact Option.noConfusion h
      | some p => rw [hp] at h; simp at h; exact h.2.symm
    | none =>
      rw [hres] at h
      have h2 : some ((PVal.str s : PVal), cache) = some (r, c') := h
      injection h2 with h3; injection h3 with ha hb; exact hb.symm
  · simp only [hcc] at h
    split at h
    · cases hp : parseTagged s with
      | none => rw [hp] at h; exact Option.noConfusion h
      | some p => rw [hp] at h; simp at h; exact h.2.symm
    · have h2 : some ((PVal.str s : PVal), cache) = some (r, c') := h
      injection h2 with h3; injection h3 with ha hb; exact hb.symm

/-- Witness for C5 (amended) at `"~:a"` (length 3): decodes to `"a"` with the
fresh cache returned unchanged. -/
theorem c5_short_string_no_slot_witness :
    decodeStr (pystr "~:a") Cache.empty false =
      some (PVal.str (pystr "a"), Cache.empty) :=
  (c5_short_string_no_slot (pystr "~:a") Cache.empty false
    (PVal.str (pystr "a")) Cache.empty (by decide) rfl).2

/-- Claim C6: the reference-code assignment agrees with the specification's
`referenceCodeFor` formula at every non-negative index — `'^' + chr(48+i)`
below 44, the two-character base-44 form otherwise — and in particular index
0 gives `"^0"`, index 43 gives `"^["` (the 44th single-character code), and
index 44 gives `"^10"` (the first two-character code). -/
theorem c6_reference_code_formula :
    (∀ index : Nat, refFor index = specReferenceCodeFor index) ∧
    refFor 0 = some (pystr "^0") ∧
    refFor 43 = some (pystr "^[") ∧
    refFor 44 = some (pystr "^10") :=
  ⟨fun _ => rfl, rfl, rfl, rfl⟩

/-- Claim C7: the scalar round trips through the decode entry point.  A bare
tagged scalar is not itself a valid JSON document, so the entry point
receives it as the document `"\"~:foo\""` etc.; the external JSON parser
(spec §1 non-goals) yields the corresponding string node, and the decode
returns the keyword text, the booleans, the integer, and the double.  The
double is the exact rational 314/100 of the literal, which equals 3.14, so
the Python comparison `== 3.14` holds. -/
theorem c7_scalar_round_trips :
    decodeTransitText (some (JVal.str (pystr "~:foo"))) (pystr "\"~:foo\"") =
      some (PVal.str (pystr "foo")) ∧
    decodeTransitText (some (JVal.str (pystr "~?t"))) (pystr "\"~?t\"") =
      some (PVal.bool true) ∧
    decodeTransitText (some (JVal.str (pystr "~?f"))) (pystr "\"~?f\"") =
      some (PVal.bool false) ∧
    decodeTransitText (some (JVal.str (pystr "~i42"))) (pystr "\"~i42\"") =
      some (PVal.int 42) ∧
    decodeTransitText (some (JVal.str (pystr "~d3.14"))) (pystr "\"~d3.14\"") =
      some (PVal.float (PyFloat.finite 314 100)) ∧
    ((314 : ℚ) / 100 = 3.14) :=
  ⟨rfl, rfl, rfl, rfl, rfl, by norm_num⟩

set_option maxRecDepth 100000 in
set_option exponentiation.threshold 1100 in
/-- Claim C1 is right about the intent but the code violates it: on the
parsed string node `"~m" + "9"*400` (for example from the JSON document
`"\"~m99…9\""`), `_parse_tagged` evaluates `int(rest) / 1000.0`; the 400-digit
integer converts to `int` fine (below the 4300-digit limit) but its
conversion to `float` raises `OverflowError`, which the surrounding
`except (ValueError, OSError)` clause does not catch, so `decode_transit`
propagates an exception instead of returning a value.  In the embedding the
uncaught exception is `none`: both the tagged-scalar parser and the full
entry point produce `none` on this input. -/
theorem c1_instant_overflow_raises :
    parseTagged mNines = none ∧ decodeTransitVal (JVal.str mNines) = none :=
  ⟨rfl, rfl⟩

/-- Counterexample to claim C2 as stated: in
`["~#set", ["~:aaaa", "^0"]]` the reference `"^0"` resolves to the tag
literal `"~#set"` — which occupies cache slot 0 — not to `"aaaa"`, so the
decode is `["aaaa", "~#set"]`, not the claimed `["aaaa", "aaaa"]`. -/
theorem c2_counterexample :
    decodeTransitVal (JVal.arr [JVal.str (pystr "~#set"),
      JVal.arr [JVal.str (pystr "~:aaaa"), JVal.str (pystr "^0")]]) =
      some (PVal.list [PVal.str (pystr "aaaa"), PVal.str (pystr "~#set")]) ∧
    some (PVal.list [PVal.str (pystr "aaaa"), PVal.str (pystr "~#set")]) ≠
      some (PVal.list [PVal.str (pystr "aaaa"), PVal.str (pystr "aaaa")]) := by
  refine ⟨rfl, ?_⟩
  intro hcon
  injection hcon with h2
  injection h2 with h3
  injection h3 with h4 h5
  injection h5 with h6 h7
  injection h6 with h8
  exact absurd h8 (by decide)

/-- Claim C2 (amended): decoding `["~#set", ["~:aaaa", "~:aaaa"]]` yields
`["aaaa", "aaaa"]`; the tag literal `"~#set"` occupies cache slot 0 and the
keyword `"~:aaaa"` slot 1, so the second occurrence on the real wire arrives
as `"^1"`, and `["~#set", ["~:aaaa", "^1"]]` also decodes to
`["aaaa", "aaaa"]`.  The third conjunct exposes the final cache of the
reference run: slot `"^0"` holds `"~#set"`, slot `"^1"` holds `"~:aaaa"`. -/
theorem c2_amended :
    decodeTransitVal (JVal.arr [JVal.str (pystr "~#set"),
      JVal.arr [JVal.str (pystr "~:aaaa"), JVal.str (pystr "~:aaaa")]]) =
      some (PVal.list [PVal.str (pystr "aaaa"), PVal.str (pystr "aaaa")]) ∧
    decodeTransitVal (JVal.arr [JVal.str (pystr "~#set"),
      JVal.arr [JVal.str (pystr "~:aaaa"), JVal.str (pystr "^1")]]) =
      some (PVal.list [PVal.str (pystr "aaaa"), PVal.str (pystr "aaaa")]) ∧
    decodeV (weight (JVal.arr [JVal.str (pystr "~#set"),
        JVal.arr [JVal.str (pystr "~:aaaa"), JVal.str (pystr "^1")]]))
      (JVal.arr [JVal.str (pystr "~#set"),
        JVal.arr [JVal.str (pystr "~:aaaa"), JVal.str (pystr "^1")]])
      Cache.empty false =
      some (PVal.list [PVal.str (pystr "aaaa"), PVal.str (pystr "aaaa")],
        ⟨[([94, 48], pystr "~#set"), ([94, 49], pystr "~:aaaa")], 2⟩) :=
  ⟨rfl, rfl, rfl⟩

/-- Evaluation of `_Cache.cache` on a literal tag header `"~#" + t`: the
tag-character test passes, so registration happens exactly when the length
reaches 4, i.e. when `t` has at least 2 code points. -/
theorem cacheTagLit (t : List Nat) (c : Cache) :
    c.cache (126 :: 35 :: t) false =
      if t.length < 2 then some c
      else (refFor c.idx).map fun ref =>
        ⟨dictInsertStr c.map ref (126 :: 35 :: t), c.idx + 1⟩ := by
  unfold Cache.cache
  by_cases hlen : (126 :: 35 :: t).length < 4
  · rw [if_pos hlen, if_pos (show t.length < 2 by simp at hlen; omega)]
  · rw [if_neg hlen,
      if_pos (show (false || cacheEligTag (126 :: 35 :: t)) = true from rfl),
      if_neg (show ¬t.length < 2 by simp at hlen; omega)]
    cases hr : refFor c.idx <;> rfl

/-- The tagged-container branch on a two-element array
`["~#" + t, null]` with an already-updated cache `c1`: the `set`, `list`,
and `ordered-set` tags wrap the scalar payload in a singleton sequence, the
`cmap` tag falls through to the generic branch on the non-list payload, and
any other tag decodes the payload generically; the cache is unchanged. -/
theorem c4aux (t : List Nat) (c1 : Cache) :
    decodeTagged 13 (126 :: 35 :: t)
      [JVal.str (126 :: 35 :: t), JVal.null] [JVal.null] c1 =
      some ((if t = pystr "set" ∨ t = pystr "list" ∨ t = pystr "ordered-set"
        then PVal.list [PVal.null] else PVal.null), c1) := by
  simp only [decodeTagged]
  simp only [show (126 :: 35 :: t).drop 2 = t from rfl]
  by_cases hset : t = pystr "set"
  · rw [if_pos hset, if_pos (Or.inl hset)]; rfl
  · rw [if_neg hset]
    by_cases hlist : t = pystr "list"
    · rw [if_pos hlist, if_pos (Or.inr (Or.inl hlist))]; rfl
    · rw [if_neg hlist]
      by_cases hcm : t = pystr "cmap"
      · rw [if_pos hcm, if_neg (show
          ¬(t = pystr "set" ∨ t = pystr "list" ∨ t = pystr "ordered-set") by
            rw [hcm]; decide)]
        rfl
      · rw [if_neg hcm]
        by_cases hos : t = pystr "ordered-set"
        · rw [if_pos hos, if_pos (Or.inr (Or.inr hos))]; rfl
        · rw [if_neg hos,
            if_neg (fun h => h.elim hset (fun h2 => h2.elim hlist hos))]
          rfl

/-- Counterexample to claim C4 as stated: the short tag header `"~#a"`
(length 3) is **not** registered — decoding `["~#a", null]` returns with the
cache still empty (no slot, counter still 0). -/
theorem c4_counterexample :
    decodeV (weight (JVal.arr [JVal.str (pystr "~#a"), JVal.null]))
      (JVal.arr [JVal.str (pystr "~#a"), JVal.null]) Cache.empty false =
      some (PVal.null, Cache.empty) := rfl

/-- Claim C4 (amended): for every array whose head is a literal string
beginning `"~#"`, decoding passes the head to `cache`, which registers it
iff its length is at least 4 (i.e. the tag body `t` has at least 2 code
points); shorter tag headers such as `"~#a"` are not registered.  Stated at
the entry point's fuel over the two-element array `["~#" + t, null]`,
exposing both the decoded value and the final cache. -/
theorem c4_tag_header_registration (t : List Nat) :
    decodeV (weight (JVal.arr [JVal.str (126 :: 35 :: t), JVal.null]))
      (JVal.arr [JVal.str (126 :: 35 :: t), JVal.null]) Cache.empty false =
      some ((if t = pystr "set" ∨ t = pystr "list" ∨ t = pystr "ordered-set"
          then PVal.list [PVal.null] else PVal.null),
        (if t.length < 2 then Cache.empty
          else ⟨[([94, 48], 126 :: 35 :: t)], 1⟩)) := by
  match t with
  | [] =>
    have h0 : decodeV (weight (JVal.arr [JVal.str [126, 35], JVal.null]))
        (JVal.arr [JVal.str [126, 35], JVal.null]) Cache.empty false =
        decodeTagged 13 [126, 35]
          [JVal.str [126, 35], JVal.null] [JVal.null] Cache.empty := rfl
    exact h0.trans (c4aux [] Cache.empty)
  | [a] =>
    have h0 : decodeV (weight (JVal.arr [JVal.str [126, 35, a], JVal.null]))
        (JVal.arr [JVal.str [126, 35, a], JVal.null]) Cache.empty false =
        decodeTagged 13 [126, 35, a]
          [JVal.str [126, 35, a], JVal.null] [JVal.null] Cache.empty := rfl
    exact h0.trans (c4aux [a] Cache.empty)
  | a :: b :: t2 =>
    have h0 : decodeV
        (weight (JVal.arr [JVal.str (126 :: 35 :: a :: b :: t2), JVal.null]))
        (JVal.arr [JVal.str (126 :: 35 :: a :: b :: t2), JVal.null])
        Cache.empty false =
        decodeTagged 13 (126 :: 35 :: a :: b :: t2)
          [JVal.str (126 :: 35 :: a :: b :: t2), JVal.null] [JVal.null]
          ⟨[([94, 48], 126 :: 35 :: a :: b :: t2)], 1⟩ := rfl
    exact h0.trans (c4aux (a :: b :: t2) ⟨[([94, 48], 126 :: 35 :: a :: b :: t2)], 1⟩)

/-- Counterexample to claim C10 as stated: for the single-element array
`["~#a"]` with its short (length-3) tag header, the tag string is registered
**zero** times, not twice — the final cache is still empty. -/
theorem c10_counterexample :
    decodeV (weight (JVal.arr [JVal.str (pystr "~#a")]))
      (JVal.arr [JVal.str (pystr "~#a")]) Cache.empty false =
      some (PVal.list [PVal.str (pystr "~#a")], Cache.empty) := rfl

/-- Claim C10 (amended): for every single-element array whose only element
is a tag-header literal `"~#" + t`, the tagged-container branch is not taken
(it needs a second element), the array decodes as a plain sequence whose
single element is the tag string returned unchanged, and the tag string is
registered twice — consuming indices 0 and 1 — iff it is cacheable
(length ≥ 4); shorter tag headers are not registered at all. -/
theorem c10_single_tag_array (t : List Nat) :
    decodeV (weight (JVal.arr [JVal.str (126 :: 35 :: t)]))
      (JVal.arr [JVal.str (126 :: 35 :: t)]) Cache.empty false =
      some (PVal.list [PVal.str (126 :: 35 :: t)],
        if t.length < 2 then Cache.empty
        else ⟨[([94, 48], 126 :: 35 :: t), ([94, 49], 126 :: 35 :: t)], 2⟩) := by
  match t with
  | [] => rfl
  | [a] => rfl
  | a :: b :: t2 => rfl

/-- Counterexample to claim C8 as stated: the verbose form
`{"~#cmap": ["~:aaaa", "^0"]}` registers the tag literal `"~#cmap"` in slot
0 before the payload is decoded, while the compact form
`["^ ", "~:aaaa", "^0"]` registers the keyword `"~:aaaa"` there, so the
shared payload decodes differently: the reference `"^0"` resolves to
`"~#cmap"` in the first run and `"aaaa"` in the second. -/
theorem c8_counterexample :
    decodeTransitVal (JVal.obj [(pystr "~#cmap",
        JVal.arr [JVal.str (pystr "~:aaaa"), JVal.str (pystr "^0")])]) =
      some (PVal.map [(PVal.str (pystr "aaaa"), PVal.str (pystr "~#cmap"))]) ∧
    decodeTransitVal (JVal.arr [JVal.str (pystr "^ "),
        JVal.str (pystr "~:aaaa"), JVal.str (pystr "^0")]) =
      some (PVal.map [(PVal.str (pystr "aaaa"), PVal.str (pystr "aaaa"))]) ∧
    some (PVal.map [(PVal.str (pystr "aaaa"), PVal.str (pystr "~#cmap"))]) ≠
      some (PVal.map [(PVal.str (pystr "aaaa"), PVal.str (pystr "aaaa"))]) := by
  refine ⟨rfl, rfl, ?_⟩
  intro hcon
  injection hcon with h2
  injection h2 with h3
  injection h3 with h4 h5
  injection h4 with h6 h7
  injection h7 with h8
  exact absurd h8 (by decide)

/-- Claim C8 (amended): a verbose `cmap` object `{"~#cmap": payload}` and
the compact sentinel map `["^ ", …payload items…]` run the same pairwise
key/value loop over the payload items, so whenever those items contain no
cache references the two forms decode to the same map value (their final
caches differ: the verbose run also registered `"~#cmap"`).  The first two
conjuncts show a concrete pair of runs; the third is the general statement
at arbitrary fuels. -/
theorem c8_amended :
    (decodeTransitVal (JVal.obj [(pystr "~#cmap",
        JVal.arr [JVal.str (pystr "~:a"), JVal.int 1,
          JVal.str (pystr "~:b"), JVal.int 2])]) =
      some (PVal.map [(PVal.str (pystr "a"), PVal.int 1),
        (PVal.str (pystr "b"), PVal.int 2)])) ∧
    (decodeTransitVal (JVal.arr (JVal.str (pystr "^ ") ::
        [JVal.str (pystr "~:a"), JVal.int 1,
          JVal.str (pystr "~:b"), JVal.int 2])) =
      some (PVal.map [(PVal.str (pystr "a"), PVal.int 1),
        (PVal.str (pystr "b"), PVal.int 2)])) ∧
    ∀ (f g : Nat) (es : List JVal) (r : PVal) (c' : Cache) (s' : PVal)
      (d' : Cache),
      refFreeL es = true →
      decodeV f (JVal.obj [(pystr "~#cmap", JVal.arr es)]) Cache.empty false =
        some (r, c') →
      decodeV g (JVal.arr (JVal.str (pystr "^ ") :: es)) Cache.empty false =
        some (s', d') →
      r = s' := by
  refine ⟨rfl, rfl, ?_⟩
  intro f g es r c' s' d' hfree h1 h2
  cases f with
  | zero => exact Option.noConfusion h1
  | succ f1 =>
    cases f1 with
    | zero => exact Option.noConfusion h1
    | succ f2 =>
      cases f2 with
      | zero => exact Option.noConfusion h1
      | succ f3 =>
        have hb : (decodePairs f3 es
            (⟨[([94, 48], pystr "~#cmap")], 1⟩ : Cache) []).map
            (fun (rc : List (PVal × PVal) × Cache) =>
              (PVal.map rc.1, rc.2)) = some (r, c') := h1
        cases g with
        | zero => exact Option.noConfusion h2
        | succ g1 =>
          cases g1 with
          | zero => exact Option.noConfusion h2
          | succ g2 =>
            have hc : (decodePairs g2 es Cache.empty []).map
                (fun (rc : List (PVal × PVal) × Cache) =>
                  (PVal.map rc.1, rc.2)) = some (s', d') := h2
            exact pairsMap_indep (decode_indep f3).2.2.2.2.1 hfree hb hc

/-- Witness for the quantified part of the amended C8: at fuel 9 on the
payload `["~:aaaa", 1]` both forms succeed and the theorem equates the two
decoded maps. -/
theorem c8_amended_witness :
    (PVal.map [(PVal.str (pystr "aaaa"), PVal.int 1)] : PVal) =
      PVal.map [(PVal.str (pystr "aaaa"), PVal.int 1)] :=
  c8_amended.2.2 9 9 [JVal.str (pystr "~:aaaa"), JVal.int 1]
    (PVal.map [(PVal.str (pystr "aaaa"), PVal.int 1)])
    ⟨[([94, 48], pystr "~#cmap"), ([94, 49], pystr "~:aaaa")], 2⟩
    (PVal.map [(PVal.str (pystr "aaaa"), PVal.int 1)])
    ⟨[([94, 48], pystr "~:aaaa")], 1⟩
    rfl rfl rfl
